import Mathlib

/-!
Verification of the PyBipartiteMatching repository: Uno-style enumeration of
all perfect and all maximum matchings of a finite bipartite graph.

The file embeds `py_bipartite_matching/py_bipartite_matching.py` shallowly:

* graphs are structures of top nodes, bottom nodes and edges (each edge is
  stored as a `(top, bottom)` pair, mirroring how every edge is created in the
  source with its left endpoint first);
* Python dictionaries (matchings) become association lists with the exact
  insertion/update/delete semantics of `dict`;
* the two generators become functions returning the list of emitted matchings
  in emission order, structurally recursive on a fuel argument; the public
  entry points instantiate the fuel with `edges.length + 1`, which dominates
  the recursion depth because every recursive call strictly decreases the
  number of edges of the current graph.

The repository module `graphs_utils.py` (directed matching graph builder, SCC
trimmer, cycle finder, node/edge removal, top/bottom node queries) and the
external networkx `maximum_matching` are not part of `src/`; they are modelled
from the specification, as noted on each such definition.  One point where the
specification's wording and the source disagree: the spec (§3) orients matched
edges bottom→top, but `_find_feaseable_two_edge_path` in the source walks a
matched arc from a left node to its partner (`left1 -> right` with
`right = matching[left1]`), and the cycle-flip loop in the source is only an
involution-free rematching under the left→right orientation.  The source is
authoritative, so matched edges are oriented top→bottom here.
-/

abbrev V := Nat

abbrev Pairs := List (V × V)

/-- Side label of a left/top node, as in the source. -/
def LEFT : Nat := 0

/-- Side label of a right/bottom node, as in the source. -/
def RIGHT : Nat := 1

/-- An undirected bipartite graph: top nodes, bottom nodes and edges, every
edge stored as a `(top, bottom)` pair. -/
structure BGraph where
  tops : List V
  bots : List V
  edges : Pairs
deriving Repr, DecidableEq

/-- A directed graph on the same vertex data, used for `D(G, M)`. -/
structure DGraph where
  tops : List V
  bots : List V
  arcs : Pairs
deriving Repr, DecidableEq

/-- Python `matching.get(k)` / `matching[k]` on an association list. -/
def mlookup : Pairs → V → Option V
  | [], _ => none
  | p :: r, k => if p.1 = k then some p.2 else mlookup r k

/-- Python `matching[k] = v`: update the existing key in place, otherwise
append, exactly as a `dict` assignment behaves on insertion order. -/
def mset (m : Pairs) (k v : V) : Pairs :=
  if (mlookup m k).isSome then
    m.map (fun p => if p.1 = k then (k, v) else p)
  else
    m ++ [(k, v)]

/-- Python `del matching[k]`. -/
def mdel (m : Pairs) (k : V) : Pairs :=
  m.filter (fun p => decide (p.1 ≠ k))

/-- The keys of a matching. -/
def mkeys (m : Pairs) : List V := m.map Prod.fst

/-- The values of a matching. -/
def mvals (m : Pairs) : List V := m.map Prod.snd

/-- Side of a node: `bipartite = 0` (LEFT) for top nodes, otherwise RIGHT,
mirroring the node attribute queries of the source. -/
def side (g : BGraph) (v : V) : Nat :=
  if v ∈ g.tops then LEFT else RIGHT

/-- Modelled from the spec: `top_nodes(graph)` of the missing
`graphs_utils.py` enumerates the nodes whose side label is TOP. -/
def top_nodes (g : BGraph) : List V := g.tops

/-- Modelled from the spec: `bottom_nodes(graph)` of the missing
`graphs_utils.py` enumerates the nodes whose side label is BOTTOM. -/
def bottom_nodes (g : BGraph) : List V := g.bots

/-- All nodes, in the insertion order used by the tests (tops first). -/
def allNodes (g : BGraph) : List V := g.tops ++ g.bots

/-- Undirected neighbourhood of a node. -/
def neighbors (g : BGraph) (v : V) : List V :=
  g.edges.filterMap (fun p =>
    if p.1 = v then some p.2 else if p.2 = v then some p.1 else none)

/-- Modelled from the spec: `create_directed_matching_graph` of the missing
`graphs_utils.py` builds `D(G, M)`, one arc per edge of `G`.  The orientation
(matched edges top→bottom, unmatched bottom→top) follows the source's
`_find_feaseable_two_edge_path`, which traverses a matched arc as
`left1 -> right` with `right = matching[left1]`; the spec's §3 states the
opposite orientation, under which the source's cycle flip would be the
identity, so the source convention is used. -/
def create_directed_matching_graph (g : BGraph) (m : Pairs) : DGraph :=
  { tops := g.tops
    bots := g.bots
    arcs := g.edges.map (fun p => if mlookup m p.1 = some p.2 then p else (p.2, p.1)) }

/-- One step of forward closure along arcs. -/
def reachStep (arcs : Pairs) (s : List V) : List V :=
  s ++ (arcs.filter (fun a => decide (a.1 ∈ s) && decide (a.2 ∉ s))).map Prod.snd

/-- Iterated forward closure. -/
def reachN : Nat → Pairs → List V → List V
  | 0, _, s => s
  | n + 1, arcs, s => reachN n arcs (reachStep arcs s)

/-- `v` is reachable from `u` along the arcs of `d` (enough closure steps to
saturate any path through the node set). -/
def reaches (d : DGraph) (u v : V) : Bool :=
  decide (v ∈ reachN (d.tops.length + d.bots.length + d.arcs.length) d.arcs [u])

/-- Modelled from the spec: `strongly_connected_components_decomposition` of
the missing `graphs_utils.py` deletes every arc whose endpoints do not share a
strongly connected component; an arc `u → v` survives exactly when `u` is
reachable from `v`.  Nodes and side labels survive. -/
def strongly_connected_components_decomposition (d : DGraph) : DGraph :=
  { d with arcs := d.arcs.filter (fun a => reaches d a.2 a.1) }

/-- Modelled from the spec: the undirected reinterpretation of a directed
matching graph (networkx `to_undirected`), every arc becoming the underlying
undirected edge, stored top-first. -/
def to_undirected (d : DGraph) : BGraph :=
  { tops := d.tops
    bots := d.bots
    edges := d.arcs.map (fun a => if a.1 ∈ d.tops then a else (a.2, a.1)) }

/-- Modelled from the spec: `graph_without_edge` of the missing
`graphs_utils.py` removes the single undirected edge `e`. -/
def graph_without_edge (g : BGraph) (e : V × V) : BGraph :=
  { g with edges := g.edges.filter (fun p => decide (p ≠ e) && decide (p ≠ (e.2, e.1))) }

/-- Modelled from the spec: `graph_without_nodes_of_edge` of the missing
`graphs_utils.py` removes both endpoints of `e` together with all incident
edges. -/
def graph_without_nodes_of_edge (g : BGraph) (e : V × V) : BGraph :=
  { tops := g.tops.filter (fun v => decide (v ≠ e.1) && decide (v ≠ e.2))
    bots := g.bots.filter (fun v => decide (v ≠ e.1) && decide (v ≠ e.2))
    edges := g.edges.filter (fun p =>
      decide (p.1 ≠ e.1) && decide (p.1 ≠ e.2) && decide (p.2 ≠ e.1) && decide (p.2 ≠ e.2)) }

/-- Entry `i % length` of a list, reading the list cyclically. -/
def cyc (c : List V) (i : Nat) : V := c.getD (i % c.length) 0

/-- Consecutive pairs of a list read cyclically: `[(c₀,c₁), …, (cₙ₋₁,c₀)]`. -/
def cyclePairs (c : List V) : Pairs :=
  (List.range c.length).map (fun i => (cyc c i, cyc c (i + 1)))

/-- The checker for candidate cycles: nonempty, vertex-distinct, every
consecutive (cyclic) pair an arc of `d`, and at least one of those arcs a
matched edge, as the name `find_cycle_with_edge_of_matching` and the spec
require. -/
def isMatchedCycle (d : DGraph) (m : Pairs) (c : List V) : Bool :=
  decide (2 ≤ c.length) && decide c.Nodup &&
    (cyclePairs c).all (fun a => decide (a ∈ d.arcs)) &&
    (cyclePairs c).any (fun a => decide (mlookup m a.1 = some a.2))

/-- Duplicate-free vertex sequences of length at most `n` drawn from a pool,
by structural recursion (so that candidate generation evaluates inside the
kernel). -/
def injSeqs : Nat → List V → List (List V)
  | 0, _ => [[]]
  | n + 1, pool =>
    [] :: pool.flatMap (fun v =>
      (injSeqs n (pool.filter (fun w => decide (w ≠ v)))).map (fun s => v :: s))

/-- Candidate vertex sequences: every duplicate-free sequence over the node
list. -/
def cycleCandidates (d : DGraph) : List (List V) :=
  injSeqs (d.tops ++ d.bots).length (d.tops ++ d.bots)

/-- Modelled from the spec: `find_cycle_with_edge_of_matching` of the missing
`graphs_utils.py` returns one simple directed cycle of `D` containing a
matched arc, or reports that none exists. -/
def find_cycle_with_edge_of_matching (d : DGraph) (m : Pairs) : Option (List V) :=
  (cycleCandidates d).find? (isMatchedCycle d m)

/-- `_start_cycle_with_left` of the source: rotate the raw cycle so that it
starts at a left node. -/
def start_cycle_with_left (g : BGraph) (raw : List V) : List V :=
  if side g (raw.getD 0 0) = LEFT then raw
  else raw.drop (raw.length - 1) ++ raw.take (raw.length - 1)

/-- The cycle flip of the source: `for i in range(0, len(cycle), 2):
matching_prime[cycle[i]] = cycle[i - 1]`. -/
def flipCycle (m : Pairs) (c : List V) : Pairs :=
  (List.range c.length).foldl
    (fun acc i =>
      if i % 2 = 0 then mset acc (c.getD i 0) (c.getD ((i + c.length - 1) % c.length) 0)
      else acc)
    m

/-- A list of pairs is a matching when no first component and no second
component repeats. -/
def isMatchingB (l : Pairs) : Bool :=
  decide (l.map Prod.fst).Nodup && decide (l.map Prod.snd).Nodup

/-- All sublists of the edge list that are matchings. -/
def matchingCandidates (g : BGraph) : List Pairs :=
  g.edges.sublists.filter isMatchingB

/-- A matching of maximum length among the candidates. -/
def bestMatching (g : BGraph) : Pairs :=
  (matchingCandidates g).foldl (fun acc x => if acc.length < x.length then x else acc) []

/-- Modelled from the spec: the external networkx `maximum_matching` returns
some maximum cardinality matching as a mapping whose keys include both sides,
so the result lists each matched pair in both directions; the callers restrict
to top keys. -/
def maximum_matching (g : BGraph) : Pairs :=
  bestMatching g ++ (bestMatching g).map (fun p => (p.2, p.1))

/-- The body of `_enum_perfect_matchings_iter`, structurally recursive on
fuel.  Apart from the fuel, each branch mirrors the source line by line. -/
def enumPerfectIter : Nat → BGraph → Pairs → List Pairs
  | 0, _, _ => []
  | fuel + 1, g, m =>
    if g.edges.isEmpty then []
    else
      match find_cycle_with_edge_of_matching (create_directed_matching_graph g m) m with
      | none => []
      | some raw =>
        let c := start_cycle_with_left g raw
        let e := (c.getD 0 0, c.getD 1 0)
        let mp := flipCycle m c
        let gplus := graph_without_nodes_of_edge g e
        let gplusTrim := to_undirected (strongly_connected_components_decomposition
          (create_directed_matching_graph gplus m))
        let gminus := graph_without_edge g e
        let gminusTrim := to_undirected (strongly_connected_components_decomposition
          (create_directed_matching_graph gminus mp))
        mp :: (enumPerfectIter fuel gplusTrim m ++ enumPerfectIter fuel gminusTrim mp)

/-- `enum_perfect_matchings` of the source. -/
def enum_perfect_matchings (g : BGraph) : List Pairs :=
  if (top_nodes g).length ≠ (bottom_nodes g).length then []
  else
    let size := (top_nodes g).length
    let matching := (maximum_matching g).filter (fun p => decide (p.1 ∈ top_nodes g))
    if matching ≠ [] ∧ matching.length = size then
      let g0 := to_undirected (strongly_connected_components_decomposition
        (create_directed_matching_graph g matching))
      matching :: enumPerfectIter (g0.edges.length + 1) g0 matching
    else []

/-- `_find_feaseable_two_edge_path` of the source (name kept, including the
original spelling): the first node iteration order is the node insertion
order, tops first as in every graph the tests build. -/
def _find_feaseable_two_edge_path (g : BGraph) (m : Pairs) : Option (List V) :=
  (allNodes g).findSome? (fun node1 =>
    if side g node1 = LEFT ∧ (mlookup m node1).isSome then
      match mlookup m node1 with
      | none => none
      | some right =>
        if right ∈ allNodes g then
          match (neighbors g right).find? (fun n2 => decide (mlookup m n2 = none)) with
          | none => none
          | some left2 => some [node1, right, left2]
        else none
    else none)

/-- The body of `_enum_maximum_matchings_iter`, structurally recursive on
fuel; each branch mirrors the source line by line.  The directed matching
graph is an explicit argument, as in the source. -/
def enumMaxIter : Nat → BGraph → Pairs → DGraph → List Pairs
  | 0, _, _, _ => []
  | fuel + 1, g, m, d =>
    if g.edges.isEmpty then []
    else
      match find_cycle_with_edge_of_matching d m with
      | some raw =>
        let c := start_cycle_with_left g raw
        let e := (c.getD 0 0, c.getD 1 0)
        let mp := flipCycle m c
        let gplus := graph_without_nodes_of_edge g e
        let dplus := create_directed_matching_graph gplus m
        let gminus := graph_without_edge g e
        let dminus := create_directed_matching_graph gminus mp
        mp :: (enumMaxIter fuel gplus m dplus ++ enumMaxIter fuel gminus mp dminus)
      | none =>
        match _find_feaseable_two_edge_path g m with
        | none => []
        | some path =>
          let t1 := path.getD 0 0
          let b := path.getD 1 0
          let t2 := path.getD 2 0
          let mp := mset (mdel m t1) t2 b
          let e := (t2, b)
          let gplus := graph_without_nodes_of_edge g e
          let dplus := create_directed_matching_graph gplus mp
          let gminus := graph_without_edge g e
          let dminus := create_directed_matching_graph gminus m
          mp :: (enumMaxIter fuel gplus mp dplus ++ enumMaxIter fuel gminus m dminus)

/-- `enum_maximum_matchings` of the source. -/
def enum_maximum_matchings (g : BGraph) : List Pairs :=
  let matching := (maximum_matching g).filter (fun p => decide (p.1 ∈ top_nodes g))
  if matching ≠ [] then
    let d := strongly_connected_components_decomposition
      (create_directed_matching_graph g matching)
    matching :: enumMaxIter (g.edges.length + 1) g matching d
  else []

/-- The keys of a matching are pairwise distinct (a Python `dict` invariant). -/
def keysNodup (m : Pairs) : Prop := (mkeys m).Nodup

/-- The values of a matching are pairwise distinct (injectivity on the bottom
side). -/
def valsNodup (m : Pairs) : Prop := (mvals m).Nodup

/-- A well-formed matching dictionary: injective on both sides. -/
def MInv (m : Pairs) : Prop := keysNodup m ∧ valsNodup m

/-- Local well-formedness of a bipartite graph: the two sides are disjoint
and every edge joins a top node to a bottom node. -/
structure WFG (g : BGraph) : Prop where
  disj : ∀ v ∈ g.tops, v ∉ g.bots
  edgeTop : ∀ p ∈ g.edges, p.1 ∈ g.tops
  edgeBot : ∀ p ∈ g.edges, p.2 ∈ g.bots

/-- Full well-formedness of an input graph, as the library preconditions
require: sides disjoint, no duplicate nodes or edges, edges top-first. -/
structure WF (g : BGraph) extends WFG g : Prop where
  topsNodup : g.tops.Nodup
  botsNodup : g.bots.Nodup
  edgesNodup : g.edges.Nodup

/-- The frame invariant carried by the recursive enumerators: every emitted
matching `N` of a frame with graph `g` and matching `m` is a dictionary,
injective on both sides, of the cardinality of `m`, whose pairs all come from
`m` or from the edges of `g`, and which agrees with `m` on every key outside
the top nodes of `g`. -/
def EmInv (g : BGraph) (m N : Pairs) : Prop :=
  MInv N ∧ N.length = m.length ∧ (∀ p ∈ N, p ∈ m ∨ p ∈ g.edges) ∧
    (∀ x, x ∉ g.tops → mlookup N x = mlookup m x)

/-- The normalized alternating cycle produced by `_start_cycle_with_left`:
even positions are top nodes matched along the cycle, odd positions are
bottom nodes, consecutive edges belong to the graph, and the length is a
positive multiple of two (at least four). -/
structure NormCycle (g : BGraph) (m : Pairs) (c : List V) : Prop where
  nodup : c.Nodup
  lenEven : c.length % 2 = 0
  lenGe : 4 ≤ c.length
  evenTop : ∀ i < c.length, i % 2 = 0 → cyc c i ∈ g.tops
  oddBot : ∀ i < c.length, i % 2 = 1 → cyc c i ∈ g.bots
  evenMatched : ∀ i < c.length, i % 2 = 0 → mlookup m (cyc c i) = some (cyc c (i + 1))
  evenEdge : ∀ i < c.length, i % 2 = 0 → (cyc c i, cyc c (i + 1)) ∈ g.edges
  oddEdge : ∀ i < c.length, i % 2 = 1 → (cyc c (i + 1), cyc c i) ∈ g.edges
  oddUnmatched : ∀ i < c.length, i % 2 = 1 → mlookup m (cyc c (i + 1)) ≠ some (cyc c i)

/-- The undirected edges of a normalized cycle, every edge as a
`(top, bottom)` pair: the matched edges `(C[2i], C[2i+1])` and the unmatched
edges `(C[2i+2], C[2i+1])`. -/
def cycleEdges (c : List V) : Finset (V × V) :=
  ((List.range c.length).map (fun i =>
    if i % 2 = 0 then (cyc c i, cyc c (i + 1)) else (cyc c (i + 1), cyc c i))).toFinset

/-- The maximum matching number of a bipartite graph: the greatest cardinality
of any sub-collection of edges that is injective on both sides. -/
def nu (g : BGraph) : Nat :=
  ((matchingCandidates g).map List.length).foldr max 0

/-- The update list applied by the cycle flip: each even-position (top) node
is rematched to the cyclically preceding (bottom) node. -/
def flipUpdates (c : List V) : Pairs :=
  (List.range c.length).filterMap (fun i =>
    if i % 2 = 0 then some (c.getD i 0, c.getD ((i + c.length - 1) % c.length) 0) else none)

/-- Apply a list of dictionary assignments in order. -/
def msetMany (m : Pairs) (us : Pairs) : Pairs :=
  us.foldl (fun acc p => mset acc p.1 p.2) m

/-- The single-pair update applied by `mset` when the key is present. -/
def updPair (k v : V) (p : V × V) : V × V := if p.1 = k then (k, v) else p

/-- The pointwise effect of a batch of present-key assignments. -/
def updMany (us : Pairs) (p : V × V) : V × V :=
  match mlookup us p.1 with
  | some v => (p.1, v)
  | none => p

/-- The variant of `_enum_maximum_matchings_iter` that the specification's
cycle branch describes literally: the `G⁺` recursion receives the parent
matching with the pair for `C[0]` removed, and `D⁺` is built from that reduced
matching.  Only claim C5 compares the source against this variant. -/
def enumMaxIterSpecC5 : Nat → BGraph → Pairs → DGraph → List Pairs
  | 0, _, _, _ => []
  | fuel + 1, g, m, d =>
    if g.edges.isEmpty then []
    else
      match find_cycle_with_edge_of_matching d m with
      | some raw =>
        let c := start_cycle_with_left g raw
        let e := (c.getD 0 0, c.getD 1 0)
        let mp := flipCycle m c
        let msub := mdel m (c.getD 0 0)
        let gplus := graph_without_nodes_of_edge g e
        let dplus := create_directed_matching_graph gplus msub
        let gminus := graph_without_edge g e
        let dminus := create_directed_matching_graph gminus mp
        mp :: (enumMaxIterSpecC5 fuel gplus msub dplus ++ enumMaxIterSpecC5 fuel gminus mp dminus)
      | none =>
        match _find_feaseable_two_edge_path g m with
        | none => []
        | some path =>
          let t1 := path.getD 0 0
          let b := path.getD 1 0
          let t2 := path.getD 2 0
          let mp := mset (mdel m t1) t2 b
          let e := (t2, b)
          let gplus := graph_without_nodes_of_edge g e
          let dplus := create_directed_matching_graph gplus mp
          let gminus := graph_without_edge g e
          let dminus := create_directed_matching_graph gminus m
          mp :: (enumMaxIterSpecC5 fuel gplus mp dplus ++ enumMaxIterSpecC5 fuel gminus m dminus)

/-- Entry point of the C5 spec-literal variant, identical to
`enum_maximum_matchings` except for the body it recurses into. -/
def enum_maximum_matchings_specC5 (g : BGraph) : List Pairs :=
  let matching := (maximum_matching g).filter (fun p => decide (p.1 ∈ top_nodes g))
  if matching ≠ [] then
    let d := strongly_connected_components_decomposition
      (create_directed_matching_graph g matching)
    matching :: enumMaxIterSpecC5 (g.edges.length + 1) g matching d
  else []

/-- The ambient invariant carried down the recursion: `T` and `B` are the
disjoint global side sets, the current graph lies inside them and is
well-formed, and the current matching is injective with sided pairs. -/
structure GInv (T B : List V) (g : BGraph) (m : Pairs) : Prop where
  disjTB : ∀ v ∈ T, v ∉ B
  topsSub : ∀ v ∈ g.tops, v ∈ T
  botsSub : ∀ v ∈ g.bots, v ∈ B
  wfg : WFG g
  minv : MInv m
  msides : ∀ p ∈ m, p.1 ∈ T ∧ p.2 ∈ B

/-- The one-edge graph of scenario S1. -/
def exS1 : BGraph := ⟨[0], [10], [(0, 10)]⟩

/-- The complete bipartite graph `K_{2,2}` on tops `{0,1}`, bottoms `{10,11}`. -/
def exK22 : BGraph := ⟨[0, 1], [10, 11], [(0, 10), (0, 11), (1, 10), (1, 11)]⟩

/-- The complete bipartite graph `K_{3,2}`. -/
def exK32 : BGraph :=
  ⟨[0, 1, 2], [10, 11], [(0, 10), (0, 11), (1, 10), (1, 11), (2, 10), (2, 11)]⟩

/-- The complete bipartite graph `K_{3,3}`. -/
def exK33 : BGraph :=
  ⟨[0, 1, 2], [10, 11, 12],
    [(0, 10), (0, 11), (0, 12), (1, 10), (1, 11), (1, 12), (2, 10), (2, 11), (2, 12)]⟩

/-- The graph with no vertices and no edges. -/
def exEmpty : BGraph := ⟨[], [], []⟩

/-! ## Dictionary lemmas -/

theorem mlookup_eq_none_iff (m : Pairs) (k : V) : mlookup m k = none ↔ k ∉ mkeys m := by
  induction m with
  | nil => simp [mlookup, mkeys]
  | cons p r ih =>
    unfold mkeys at ih ⊢
    by_cases h : p.1 = k
    · simp [mlookup, h]
    · simp only [mlookup, if_neg h, List.map_cons, List.mem_cons, ih]
      constructor
      · intro hn hc
        rcases hc with hc | hc
        · exact h hc.symm
        · exact hn hc
      · intro hn hc
        exact hn (Or.inr hc)

theorem mlookup_isSome_iff (m : Pairs) (k : V) : (mlookup m k).isSome ↔ k ∈ mkeys m := by
  rw [Option.isSome_iff_ne_none, not_iff_comm, ← mlookup_eq_none_iff]

theorem mem_of_mlookup {m : Pairs} {k v : V} (h : mlookup m k = some v) : (k, v) ∈ m := by
  induction m with
  | nil => simp [mlookup] at h
  | cons p r ih =>
    by_cases hp : p.1 = k
    · rw [mlookup, if_pos hp] at h
      have h2 : p.2 = v := by injection h
      have hpe : p = (k, v) := by
        calc p = (p.1, p.2) := rfl
        _ = (k, v) := by rw [hp, h2]
      exact List.mem_cons.mpr (Or.inl hpe.symm)
    · rw [mlookup, if_neg hp] at h
      exact List.mem_cons_of_mem _ (ih h)

theorem mlookup_of_mem {m : Pairs} {p : V × V} (hk : keysNodup m) (hp : p ∈ m) :
    mlookup m p.1 = some p.2 := by
  induction m with
  | nil => simp at hp
  | cons q r ih =>
    rcases List.mem_cons.mp hp with h | h
    · simp [mlookup, h]
    · have hk' : keysNodup r := (List.nodup_cons.mp hk).2
      have hq : q.1 ≠ p.1 := by
        intro he
        have : p.1 ∈ mkeys r := List.mem_map_of_mem Prod.fst h
        exact (List.nodup_cons.mp hk).1 (he ▸ this)
      simp [mlookup, hq, ih hk' h]

theorem mem_iff_mlookup {m : Pairs} {p : V × V} (hk : keysNodup m) :
    p ∈ m ↔ mlookup m p.1 = some p.2 :=
  ⟨mlookup_of_mem hk, fun h => mem_of_mlookup h⟩

theorem mkeys_mset_of_mem {m : Pairs} {k : V} (h : k ∈ mkeys m) (v : V) :
    mkeys (mset m k v) = mkeys m := by
  have hs : (mlookup m k).isSome := (mlookup_isSome_iff m k).mpr h
  unfold mset
  rw [if_pos hs]
  unfold mkeys
  rw [List.map_map]
  apply List.map_congr_left
  intro p _
  by_cases hp : p.1 = k <;> simp [hp]

theorem length_mset_of_mem {m : Pairs} {k : V} (h : k ∈ mkeys m) (v : V) :
    (mset m k v).length = m.length := by
  have hs : (mlookup m k).isSome := (mlookup_isSome_iff m k).mpr h
  unfold mset
  rw [if_pos hs, List.length_map]

theorem mlookup_map_upd_self (m : Pairs) (k v : V) :
    k ∈ mkeys m → mlookup (m.map (updPair k v)) k = some v := by
  induction m with
  | nil => intro h; simp [mkeys] at h
  | cons p r ih =>
    intro h
    by_cases hp : p.1 = k
    · simp [mlookup, updPair, hp]
    · have hkr : k ∈ mkeys r := by
        unfold mkeys at h ⊢
        rcases List.mem_map.mp h with ⟨q, hq, he⟩
        rcases List.mem_cons.mp hq with rfl | hq'
        · exact absurd he hp
        · exact he ▸ List.mem_map_of_mem Prod.fst hq'
      simp [mlookup, updPair, hp, ih hkr]

theorem mlookup_append_single_self (m : Pairs) (k v : V) :
    k ∉ mkeys m → mlookup (m ++ [(k, v)]) k = some v := by
  induction m with
  | nil => intro _; simp [mlookup]
  | cons p r ih =>
    intro h
    have hp : p.1 ≠ k := by
      intro he
      exact h (by unfold mkeys; exact he ▸ List.mem_map_of_mem Prod.fst (List.mem_cons_self p r))
    have hr : k ∉ mkeys r := by
      intro he
      unfold mkeys at he h
      exact h (List.mem_cons_of_mem _ he)
    simp only [List.cons_append, mlookup, if_neg hp]
    exact ih hr

theorem mlookup_mset_self (m : Pairs) (k v : V) : mlookup (mset m k v) k = some v := by
  unfold mset
  split
  · rename_i hs
    exact mlookup_map_upd_self m k v ((mlookup_isSome_iff m k).mp hs)
  · rename_i hs
    have : k ∉ mkeys m := by
      intro h
      exact hs ((mlookup_isSome_iff m k).mpr h)
    exact mlookup_append_single_self m k v this

theorem mlookup_map_upd_ne (m : Pairs) (k v : V) {j : V} (h1 : ¬(k = j)) :
    mlookup (m.map (updPair k v)) j = mlookup m j := by
  induction m with
  | nil => simp [mlookup]
  | cons p r ih =>
    by_cases hp : p.1 = k
    · have h2 : ¬(p.1 = j) := by rw [hp]; exact h1
      simp only [List.map_cons, mlookup, updPair, if_pos hp, if_neg h1, if_neg h2]
      exact ih
    · simp only [List.map_cons, mlookup, updPair, if_neg hp]
      by_cases hj : p.1 = j
      · simp [hj]
      · simp only [if_neg hj]
        exact ih

theorem mlookup_append_single_ne (m : Pairs) (k v : V) {j : V} (h1 : ¬(k = j)) :
    mlookup (m ++ [(k, v)]) j = mlookup m j := by
  induction m with
  | nil => simp [mlookup, h1]
  | cons p r ih =>
    by_cases hj : p.1 = j
    · simp only [List.cons_append, mlookup, if_pos hj]
    · simp only [List.cons_append, mlookup, if_neg hj]
      exact ih

theorem mlookup_mset_ne (m : Pairs) (k v : V) {j : V} (h : j ≠ k) :
    mlookup (mset m k v) j = mlookup m j := by
  have h1 : ¬(k = j) := fun he => h he.symm
  unfold mset
  split
  · exact mlookup_map_upd_ne m k v h1
  · exact mlookup_append_single_ne m k v h1

theorem mkeys_mdel (m : Pairs) (k : V) :
    mkeys (mdel m k) = (mkeys m).filter (fun x => decide (x ≠ k)) := by
  unfold mdel mkeys
  rw [List.filter_map]
  rfl

theorem mlookup_mdel (m : Pairs) (k j : V) :
    mlookup (mdel m k) j = if j = k then none else mlookup m j := by
  induction m with
  | nil => simp [mdel, mlookup]
  | cons p r ih =>
    unfold mdel at ih ⊢
    by_cases hpk : p.1 = k
    · rw [List.filter_cons_of_neg (by simp [hpk])]
      rw [ih]
      by_cases hj : j = k
      · simp [hj]
      · have hpj : ¬(p.1 = j) := by rw [hpk]; exact fun he => hj he.symm
        simp [mlookup, hpj, hj]
    · rw [List.filter_cons_of_pos (by simp [hpk])]
      by_cases hpj : p.1 = j
      · have hj : ¬(j = k) := fun he => hpk (hpj.trans he)
        simp [mlookup, hpj, hj]
      · simp only [mlookup, if_neg hpj]
        exact ih

theorem mdel_sub (m : Pairs) (k : V) : ∀ p ∈ mdel m k, p ∈ m := by
  intro p hp
  exact (List.mem_filter.mp hp).1

theorem length_mdel {m : Pairs} {k : V} (hk : keysNodup m) (h : k ∈ mkeys m) :
    (mdel m k).length + 1 = m.length := by
  induction m with
  | nil => simp [mkeys] at h
  | cons p r ih =>
    have hk2 : (p.1 :: List.map Prod.fst r).Nodup := hk
    have hk' : keysNodup r := (List.nodup_cons.mp hk2).2
    have hnotin : p.1 ∉ List.map Prod.fst r := (List.nodup_cons.mp hk2).1
    by_cases hp : p.1 = k
    · have hr : mdel r k = r := by
        apply List.filter_eq_self.mpr
        intro q hq
        simp only [decide_eq_true_eq]
        intro he
        exact hnotin (hp ▸ he ▸ List.mem_map_of_mem Prod.fst hq)
      unfold mdel at hr ⊢
      rw [List.filter_cons_of_neg (by simp [hp]), hr]
      simp
    · have hkr : k ∈ mkeys r := by
        unfold mkeys at h ⊢
        rcases List.mem_map.mp h with ⟨q, hq, he⟩
        rcases List.mem_cons.mp hq with rfl | hq'
        · exact absurd he hp
        · exact he ▸ List.mem_map_of_mem Prod.fst hq'
      have hlen := ih hk' hkr
      unfold mdel at hlen ⊢
      rw [List.filter_cons_of_pos (by simp [hp])]
      simp only [List.length_cons]
      omega

/-! ## Batch assignment lemmas -/

theorem mset_eq_map_of_mem {m : Pairs} {k : V} (h : k ∈ mkeys m) (v : V) :
    mset m k v = m.map (updPair k v) := by
  unfold mset
  rw [if_pos ((mlookup_isSome_iff m k).mpr h)]
  rfl

theorem mkeys_map_keyfix (m : Pairs) (f : V × V → V × V) (hf : ∀ p, (f p).1 = p.1) :
    mkeys (m.map f) = mkeys m := by
  unfold mkeys
  rw [List.map_map]
  apply List.map_congr_left
  intro p _
  exact hf p

theorem updPair_keyfix (k v : V) : ∀ p, (updPair k v p).1 = p.1 := by
  intro p
  unfold updPair
  split
  · rename_i h
    exact h.symm
  · rfl

theorem updMany_keyfix (us : Pairs) : ∀ p, (updMany us p).1 = p.1 := by
  intro p
  unfold updMany
  split <;> rfl

theorem foldl_filterMap_mset (l : List Nat) (f : Nat → Option (V × V)) (m : Pairs) :
    List.foldl (fun acc i => match f i with | some p => mset acc p.1 p.2 | none => acc) m l
      = msetMany m (l.filterMap f) := by
  induction l generalizing m with
  | nil => rfl
  | cons i l ih =>
    cases hf : f i with
    | none => simp only [List.foldl_cons, hf, List.filterMap_cons, ih]
    | some p => simp only [List.foldl_cons, hf, List.filterMap_cons, ih, msetMany, List.foldl_cons]

theorem flipCycle_eq_msetMany (m : Pairs) (c : List V) :
    flipCycle m c = msetMany m (flipUpdates c) := by
  unfold flipCycle flipUpdates
  have hbody : (fun (acc : Pairs) i =>
        if i % 2 = 0 then mset acc (c.getD i 0) (c.getD ((i + c.length - 1) % c.length) 0)
        else acc)
      = (fun (acc : Pairs) i =>
        match (fun i => if i % 2 = 0 then
            some (c.getD i 0, c.getD ((i + c.length - 1) % c.length) 0) else none) i with
        | some p => mset acc p.1 p.2
        | none => acc) := by
    funext acc i
    by_cases h : i % 2 = 0 <;> simp [h]
  rw [hbody, foldl_filterMap_mset]

theorem msetMany_eq_map (us : Pairs) : ∀ m : Pairs, keysNodup us →
    (∀ k ∈ mkeys us, k ∈ mkeys m) → msetMany m us = m.map (updMany us) := by
  induction us with
  | nil =>
    intro m _ _
    have : ∀ p ∈ m, updMany [] p = p := by
      intro p _
      unfold updMany mlookup
      rfl
    rw [msetMany, List.foldl_nil, (List.map_congr_left this).trans (List.map_id m)]
  | cons q us ih =>
    intro m hnd hall
    have hq : q.1 ∈ mkeys m := hall q.1 (by unfold mkeys; simp)
    have hnd2 : (q.1 :: List.map Prod.fst us).Nodup := hnd
    have hqus : q.1 ∉ mkeys us := (List.nodup_cons.mp hnd2).1
    have hnd' : keysNodup us := (List.nodup_cons.mp hnd2).2
    have hall' : ∀ k ∈ mkeys us, k ∈ mkeys (m.map (updPair q.1 q.2)) := by
      intro k hk
      rw [mkeys_map_keyfix m _ (updPair_keyfix q.1 q.2)]
      exact hall k (by unfold mkeys at hk ⊢; exact List.mem_cons_of_mem _ hk)
    have hstep : msetMany m (q :: us) = msetMany (m.map (updPair q.1 q.2)) us := by
      unfold msetMany
      rw [List.foldl_cons, mset_eq_map_of_mem hq]
    rw [hstep, ih _ hnd' hall', List.map_map]
    apply List.map_congr_left
    intro p _
    show updMany us (updPair q.1 q.2 p) = updMany (q :: us) p
    by_cases hp : p.1 = q.1
    · have h1 : updPair q.1 q.2 p = (q.1, q.2) := by unfold updPair; rw [if_pos hp]
      have h2 : mlookup us q.1 = none := (mlookup_eq_none_iff us q.1).mpr hqus
      have h3 : mlookup (q :: us) p.1 = some q.2 := by
        show (if q.1 = p.1 then some q.2 else mlookup us p.1) = some q.2
        rw [if_pos hp.symm]
      unfold updMany
      rw [h1, h3]
      simp only [h2]
      rw [hp]
    · have h1 : updPair q.1 q.2 p = p := by unfold updPair; rw [if_neg hp]
      have h3 : mlookup (q :: us) p.1 = mlookup us p.1 := by
        show (if q.1 = p.1 then some q.2 else mlookup us p.1) = mlookup us p.1
        rw [if_neg (fun he => hp he.symm)]
      unfold updMany
      rw [h1, h3]

theorem mlookup_map_keyfix (m : Pairs) (f : V × V → V × V) (hf : ∀ p, (f p).1 = p.1) (k : V) :
    mlookup (m.map f) k = match mlookup m k with
      | some v => some (f (k, v)).2
      | none => none := by
  induction m with
  | nil => rfl
  | cons p r ih =>
    by_cases hp : p.1 = k
    · have hfp : (f p).1 = k := (hf p).trans hp
      have hpe : p = (k, p.2) := by
        calc p = (p.1, p.2) := rfl
        _ = (k, p.2) := by rw [hp]
      simp only [List.map_cons, mlookup, if_pos hfp, if_pos hp]
      rw [hpe]
    · have hfp : (f p).1 ≠ k := by rw [hf p]; exact hp
      simp only [List.map_cons, mlookup, if_neg hfp, if_neg hp]
      exact ih

/-! ## Cyclic index lemmas -/

theorem cyc_getD (c : List V) {i : Nat} (h : i < c.length) : cyc c i = c.getD i 0 := by
  unfold cyc
  rw [Nat.mod_eq_of_lt h]

theorem cyc_eq_of_mod_eq {c : List V} {i j : Nat} (h : i % c.length = j % c.length) :
    cyc c i = cyc c j := by
  unfold cyc
  rw [h]

theorem cyc_mod (c : List V) (i : Nat) : cyc c (i % c.length) = cyc c i :=
  cyc_eq_of_mod_eq (Nat.mod_mod i c.length)

theorem cyc_inj {c : List V} (h : c.Nodup) {i j : Nat} (hi : i < c.length)
    (hj : j < c.length) (he : cyc c i = cyc c j) : i = j := by
  rw [cyc_getD c hi, cyc_getD c hj, List.getD_eq_getElem c 0 hi, List.getD_eq_getElem c 0 hj]
    at he
  exact (List.Nodup.getElem_inj_iff h).mp he

theorem cyclePairs_mem (c : List V) {i : Nat} (h : i < c.length) :
    (cyc c i, cyc c (i + 1)) ∈ cyclePairs c := by
  unfold cyclePairs
  exact List.mem_map_of_mem _ (List.mem_range.mpr h)

theorem cyclePairs_mem_all (c : List V) (h : c.length ≠ 0) (i : Nat) :
    (cyc c i, cyc c (i + 1)) ∈ cyclePairs c := by
  have h1 : cyc c i = cyc c (i % c.length) := (cyc_mod c i).symm
  have h2 : cyc c (i + 1) = cyc c (i % c.length + 1) :=
    cyc_eq_of_mod_eq (by rw [Nat.mod_add_mod])
  rw [h1, h2]
  exact cyclePairs_mem c (Nat.mod_lt i (Nat.pos_of_ne_zero h))

theorem cyclePairs_elim {c : List V} {a : V × V} (h : a ∈ cyclePairs c) :
    ∃ i < c.length, a = (cyc c i, cyc c (i + 1)) := by
  unfold cyclePairs at h
  rcases List.mem_map.mp h with ⟨i, hi, he⟩
  exact ⟨i, List.mem_range.mp hi, he.symm⟩

/-! ## Normalization (`_start_cycle_with_left`) lemmas -/

theorem side_eq_left_iff (g : BGraph) (v : V) : side g v = LEFT ↔ v ∈ g.tops := by
  unfold side LEFT RIGHT
  split
  · rename_i h
    simpa using h
  · rename_i h
    simpa using h

theorem scl_eq_rotate {g : BGraph} {raw : List V} (h : ¬(side g (raw.getD 0 0) = LEFT)) :
    start_cycle_with_left g raw = raw.rotate (raw.length - 1) := by
  unfold start_cycle_with_left
  rw [if_neg h, List.rotate_eq_drop_append_take (Nat.sub_le raw.length 1)]

theorem scl_length (g : BGraph) (raw : List V) :
    (start_cycle_with_left g raw).length = raw.length := by
  unfold start_cycle_with_left
  split
  · rfl
  · rw [List.length_append, List.length_drop, List.length_take]
    omega

theorem scl_nodup (g : BGraph) {raw : List V} (h : raw.Nodup) :
    (start_cycle_with_left g raw).Nodup := by
  unfold start_cycle_with_left
  split
  · exact h
  · rename_i hs
    rw [← List.rotate_eq_drop_append_take (Nat.sub_le raw.length 1)]
    exact (List.nodup_rotate).mpr h

theorem scl_cyc {g : BGraph} {raw : List V} (h : ¬(side g (raw.getD 0 0) = LEFT))
    (hlen : raw.length ≠ 0) (i : Nat) :
    cyc (start_cycle_with_left g raw) i = cyc raw (i + raw.length - 1) := by
  have hrot := scl_eq_rotate h
  have hlr : (raw.rotate (raw.length - 1)).length = raw.length := List.length_rotate raw _
  have hpos : 0 < raw.length := Nat.pos_of_ne_zero hlen
  by_cases hb : i % raw.length < raw.length
  · have hco : cyc (start_cycle_with_left g raw) i
        = cyc (start_cycle_with_left g raw) (i % raw.length) := by
      apply cyc_eq_of_mod_eq
      rw [scl_length, Nat.mod_mod]
    rw [hco, hrot]
    have hb2 : i % raw.length < (raw.rotate (raw.length - 1)).length := by rw [hlr]; exact hb
    rw [cyc_getD _ hb2, List.getD_eq_getElem _ 0 hb2, List.getElem_rotate]
    have : cyc raw (i % raw.length + (raw.length - 1))
        = cyc raw (i + raw.length - 1) := by
      apply cyc_eq_of_mod_eq
      rw [Nat.mod_add_mod]
      congr 1
      omega
    rw [← this]
    unfold cyc
    rw [List.getD_eq_getElem]
  · exact absurd (Nat.mod_lt i hpos) hb

theorem scl_cyclePairs_sub (g : BGraph) {raw : List V} (hlen : raw.length ≠ 0) :
    ∀ a ∈ cyclePairs (start_cycle_with_left g raw), a ∈ cyclePairs raw := by
  intro a ha
  by_cases hs : side g (raw.getD 0 0) = LEFT
  · unfold start_cycle_with_left at ha
    rw [if_pos hs] at ha
    exact ha
  · rcases cyclePairs_elim ha with ⟨i, hi, he⟩
    rw [scl_cyc hs hlen i, scl_cyc hs hlen (i + 1)] at he
    have h2 : cyc raw (i + 1 + raw.length - 1) = cyc raw ((i + raw.length - 1) + 1) := by
      apply cyc_eq_of_mod_eq
      congr 1
      omega
    rw [h2] at he
    rw [he]
    exact cyclePairs_mem_all raw hlen (i + raw.length - 1)

/-! ## Directed matching graph arc structure -/

theorem arc_cases {g : BGraph} {m : Pairs} {a : V × V}
    (h : a ∈ (create_directed_matching_graph g m).arcs) :
    (a ∈ g.edges ∧ mlookup m a.1 = some a.2) ∨
      ((a.2, a.1) ∈ g.edges ∧ mlookup m a.2 ≠ some a.1) := by
  unfold create_directed_matching_graph at h
  rcases List.mem_map.mp h with ⟨p, hp, he⟩
  by_cases hm : mlookup m p.1 = some p.2
  · rw [if_pos hm] at he
    left
    rw [← he]
    exact ⟨hp, hm⟩
  · rw [if_neg hm] at he
    right
    rw [← he]
    exact ⟨hp, hm⟩

theorem arc_sides {g : BGraph} {m : Pairs} {a : V × V} (hw : WFG g)
    (h : a ∈ (create_directed_matching_graph g m).arcs) :
    (a.1 ∈ g.tops ∧ a.2 ∈ g.bots ∧ a ∈ g.edges ∧ mlookup m a.1 = some a.2) ∨
      (a.1 ∈ g.bots ∧ a.2 ∈ g.tops ∧ (a.2, a.1) ∈ g.edges ∧ mlookup m a.2 ≠ some a.1) := by
  rcases arc_cases h with ⟨he, hm⟩ | ⟨he, hm⟩
  · exact Or.inl ⟨hw.edgeTop _ he, hw.edgeBot _ he, he, hm⟩
  · exact Or.inr ⟨hw.edgeBot _ he, hw.edgeTop _ he, he, hm⟩

theorem arcs_length_buildD (g : BGraph) (m : Pairs) :
    (create_directed_matching_graph g m).arcs.length = g.edges.length := by
  unfold create_directed_matching_graph
  exact List.length_map g.edges _

theorem isMatchedCycle_parts {d : DGraph} {m : Pairs} {c : List V}
    (h : isMatchedCycle d m c = true) :
    2 ≤ c.length ∧ c.Nodup ∧ (∀ a ∈ cyclePairs c, a ∈ d.arcs) ∧
      ∃ a ∈ cyclePairs c, mlookup m a.1 = some a.2 := by
  unfold isMatchedCycle at h
  simp only [Bool.and_eq_true, List.all_eq_true, List.any_eq_true, decide_eq_true_eq] at h
  exact ⟨h.1.1.1, h.1.1.2, h.1.2, h.2⟩

/-! ## Construction of the normalized alternating cycle -/

theorem scl_head_top {g : BGraph} {m : Pairs} {d : DGraph} {raw : List V} (hw : WFG g)
    (hsub : ∀ a ∈ d.arcs, a ∈ (create_directed_matching_graph g m).arcs)
    (hcy : isMatchedCycle d m raw = true) :
    cyc (start_cycle_with_left g raw) 0 ∈ g.tops := by
  obtain ⟨hlen2, hnd, harcs, -⟩ := isMatchedCycle_parts hcy
  have hlen : raw.length ≠ 0 := by omega
  by_cases hs : side g (raw.getD 0 0) = LEFT
  · have : start_cycle_with_left g raw = raw := by
      unfold start_cycle_with_left
      rw [if_pos hs]
    rw [this, cyc_getD raw (by omega)]
    exact (side_eq_left_iff g _).mp hs
  · have h0 : raw.getD 0 0 ∉ g.tops := fun hmem =>
      hs ((side_eq_left_iff g _).mpr hmem)
    have hwrap : (cyc raw (raw.length - 1), cyc raw (raw.length - 1 + 1)) ∈ cyclePairs raw :=
      cyclePairs_mem raw (by omega)
    have hwrap2 : cyc raw (raw.length - 1 + 1) = raw.getD 0 0 := by
      have : cyc raw (raw.length - 1 + 1) = cyc raw 0 := by
        apply cyc_eq_of_mod_eq
        have : raw.length - 1 + 1 = raw.length := by omega
        rw [this, Nat.mod_self, Nat.zero_mod]
      rw [this, cyc_getD raw (by omega)]
    have harc := hsub _ (harcs _ hwrap)
    rcases arc_sides hw harc with ⟨h1, h2, -, -⟩ | ⟨h1, h2, -, -⟩
    · rw [scl_cyc hs hlen 0]
      have : (0 : Nat) + raw.length - 1 = raw.length - 1 := by omega
      rw [this]
      exact h1
    · exact absurd (hwrap2 ▸ h2) h0

theorem normCycle_of_found {g : BGraph} {m : Pairs} {d : DGraph} {raw : List V} (hw : WFG g)
    (hsub : ∀ a ∈ d.arcs, a ∈ (create_directed_matching_graph g m).arcs)
    (hcy : isMatchedCycle d m raw = true) :
    NormCycle g m (start_cycle_with_left g raw) := by
  obtain ⟨hlen2, hnd, harcs, -⟩ := isMatchedCycle_parts hcy
  have hlenraw : raw.length ≠ 0 := by omega
  set c := start_cycle_with_left g raw with hc
  have hclen : c.length = raw.length := scl_length g raw
  have hclen2 : 2 ≤ c.length := by omega
  have hcnd : c.Nodup := scl_nodup g hnd
  have hcarcs : ∀ a ∈ cyclePairs c, a ∈ (create_directed_matching_graph g m).arcs := by
    intro a ha
    exact hsub _ (harcs _ (scl_cyclePairs_sub g hlenraw a ha))
  have h0 : cyc c 0 ∈ g.tops := scl_head_top hw hsub hcy
  have hpair : ∀ i, i < c.length →
      (cyc c i, cyc c (i + 1)) ∈ (create_directed_matching_graph g m).arcs := by
    intro i hi
    exact hcarcs _ (cyclePairs_mem c hi)
  have halt : ∀ i, i < c.length →
      (i % 2 = 0 → cyc c i ∈ g.tops) ∧ (i % 2 = 1 → cyc c i ∈ g.bots) := by
    intro i
    induction i with
    | zero =>
      intro _
      exact ⟨fun _ => h0, fun h => by omega⟩
    | succ i ih =>
      intro hi
      have hi' : i < c.length := by omega
      have harc := hpair i hi'
      rcases Nat.even_or_odd i with he | ho
      · have he2 : i % 2 = 0 := Nat.even_iff.mp he
        have htop : cyc c i ∈ g.tops := ((ih hi').1) he2
        rcases arc_sides hw harc with ⟨-, h2, -, -⟩ | ⟨h1, -, -, -⟩
        · constructor
          · intro hcon
            omega
          · intro _
            exact h2
        · exact absurd h1 (hw.disj _ htop)
      · have ho2 : i % 2 = 1 := Nat.odd_iff.mp ho
        have hbot : cyc c i ∈ g.bots := ((ih hi').2) ho2
        rcases arc_sides hw harc with ⟨h1, -, -, -⟩ | ⟨-, h2, -, -⟩
        · exact absurd hbot (hw.disj _ h1)
        · constructor
          · intro _
            exact h2
          · intro hcon
            omega
  have hlenEven : c.length % 2 = 0 := by
    by_contra hodd
    have hodd2 : c.length % 2 = 1 := by omega
    have hlast : (c.length - 1) % 2 = 0 := by omega
    have htop : cyc c (c.length - 1) ∈ g.tops := (halt _ (by omega)).1 hlast
    have htop0 : cyc c (c.length - 1 + 1) ∈ g.tops := by
      have : cyc c (c.length - 1 + 1) = cyc c 0 := by
        apply cyc_eq_of_mod_eq
        have h1 : c.length - 1 + 1 = c.length := by omega
        rw [h1, Nat.mod_self, Nat.zero_mod]
      rw [this]
      exact h0
    have harc := hpair (c.length - 1) (by omega)
    rcases arc_sides hw harc with ⟨-, h2, -, -⟩ | ⟨h1, -, -, -⟩
    · exact absurd h2 (hw.disj _ htop0)
    · exact absurd h1 (hw.disj _ htop)
  have hevenMatched : ∀ i < c.length, i % 2 = 0 →
      mlookup m (cyc c i) = some (cyc c (i + 1)) ∧ (cyc c i, cyc c (i + 1)) ∈ g.edges := by
    intro i hi hev
    have htop : cyc c i ∈ g.tops := (halt i hi).1 hev
    rcases arc_sides hw (hpair i hi) with ⟨-, -, h3, h4⟩ | ⟨h1, -, -, -⟩
    · exact ⟨h4, h3⟩
    · exact absurd h1 (hw.disj _ htop)
  have hoddParts : ∀ i < c.length, i % 2 = 1 →
      (cyc c (i + 1), cyc c i) ∈ g.edges ∧ mlookup m (cyc c (i + 1)) ≠ some (cyc c i) := by
    intro i hi hod
    have hbot : cyc c i ∈ g.bots := (halt i hi).2 hod
    rcases arc_sides hw (hpair i hi) with ⟨h1, -, -, -⟩ | ⟨-, -, h3, h4⟩
    · exact absurd hbot (hw.disj _ h1)
    · exact ⟨h3, h4⟩
  have hlenGe : 4 ≤ c.length := by
    by_contra hlt
    have hl2 : c.length = 2 := by omega
    have hm0 := (hevenMatched 0 (by omega) (by omega)).1
    have hu1 := (hoddParts 1 (by omega) (by omega)).2
    have hcyc2 : cyc c (1 + 1) = cyc c 0 := by
      apply cyc_eq_of_mod_eq
      rw [hl2]
    rw [hcyc2] at hu1
    exact hu1 hm0
  exact { nodup := hcnd, lenEven := hlenEven, lenGe := hlenGe,
          evenTop := fun i hi he => (halt i hi).1 he,
          oddBot := fun i hi ho => (halt i hi).2 ho,
          evenMatched := fun i hi he => (hevenMatched i hi he).1,
          evenEdge := fun i hi he => (hevenMatched i hi he).2,
          oddEdge := fun i hi ho => (hoddParts i hi ho).1,
          oddUnmatched := fun i hi ho => (hoddParts i hi ho).2 }

/-! ## Flip update list -/

theorem filterMap_if_eq_map_filter (l : List Nat) (P : Nat → Prop) [DecidablePred P]
    (f : Nat → V × V) :
    (l.filterMap (fun i => if P i then some (f i) else none))
      = (l.filter (fun i => decide (P i))).map f := by
  induction l with
  | nil => rfl
  | cons i l ih =>
    by_cases h : P i
    · rw [List.filterMap_cons, List.filter_cons]
      simp [h, ih]
    · rw [List.filterMap_cons, List.filter_cons]
      simp [h, ih]

theorem flipUpdates_eq (c : List V) : flipUpdates c =
    ((List.range c.length).filter (fun i => decide (i % 2 = 0))).map
      (fun i => (c.getD i 0, c.getD ((i + c.length - 1) % c.length) 0)) := by
  unfold flipUpdates
  exact filterMap_if_eq_map_filter _ _ _

theorem mem_flipUpdates_cyc {c : List V} (hl : c.length ≠ 0) {p : V × V} :
    p ∈ flipUpdates c ↔
      ∃ i, i < c.length ∧ i % 2 = 0 ∧ p = (cyc c i, cyc c (i + c.length - 1)) := by
  rw [flipUpdates_eq]
  constructor
  · intro h
    rcases List.mem_map.mp h with ⟨i, hi, he⟩
    have hir := List.mem_filter.mp hi
    have hilt : i < c.length := List.mem_range.mp hir.1
    have hev : i % 2 = 0 := by simpa using hir.2
    refine ⟨i, hilt, hev, ?_⟩
    rw [← he, cyc_getD c hilt]
    unfold cyc
    rfl
  · rintro ⟨i, hilt, hev, he⟩
    apply List.mem_map.mpr
    refine ⟨i, List.mem_filter.mpr ⟨List.mem_range.mpr hilt, by simpa using hev⟩, ?_⟩
    rw [he, cyc_getD c hilt]
    unfold cyc
    rfl

theorem prev_mod (len i : Nat) (h0 : 0 < len) (hi : i < len) :
    (i + len - 1) % len = if i = 0 then len - 1 else i - 1 := by
  split
  · rename_i he
    subst he
    rw [Nat.zero_add, Nat.mod_eq_of_lt (by omega)]
  · rename_i hne
    have h2 : i + len - 1 = (i - 1) + len := by omega
    rw [h2, Nat.add_mod_right, Nat.mod_eq_of_lt (by omega)]

theorem prev_idx_inj {len i j : Nat} (h0 : 0 < len) (hi : i < len) (hj : j < len)
    (he : (i + len - 1) % len = (j + len - 1) % len) : i = j := by
  rw [prev_mod len i h0 hi, prev_mod len j h0 hj] at he
  split at he <;> split at he <;> omega

theorem prev_mod_odd {len i : Nat} (hlenEven : len % 2 = 0) (h0 : 0 < len) (hi : i < len)
    (hev : i % 2 = 0) : ((i + len - 1) % len) % 2 = 1 := by
  rw [prev_mod len i h0 hi]
  split <;> omega

theorem keysNodup_flipUpdates {c : List V} (h : c.Nodup) : keysNodup (flipUpdates c) := by
  unfold keysNodup mkeys
  rw [flipUpdates_eq, List.map_map]
  apply List.Nodup.map_on
  · intro i hi j hj he
    have hi' : i < c.length := List.mem_range.mp (List.mem_filter.mp hi).1
    have hj' : j < c.length := List.mem_range.mp (List.mem_filter.mp hj).1
    apply cyc_inj h hi' hj'
    rw [cyc_getD c hi', cyc_getD c hj']
    exact he
  · exact (List.nodup_range _).filter _

theorem flipUpdates_keys_mem {g : BGraph} {m : Pairs} {c : List V} (hn : NormCycle g m c) :
    ∀ k ∈ mkeys (flipUpdates c), k ∈ mkeys m := by
  intro k hk
  have hl : c.length ≠ 0 := by have := hn.lenGe; omega
  rcases List.mem_map.mp hk with ⟨p, hp, he⟩
  rcases (mem_flipUpdates_cyc hl).mp hp with ⟨i, hi, hev, hpe⟩
  have hkey : k = cyc c i := by rw [← he, hpe]
  rw [hkey, ← mlookup_isSome_iff, hn.evenMatched i hi hev]
  rfl

theorem mlookup_flipUpdates_even {c : List V} (hnd : c.Nodup) (hl : c.length ≠ 0) {i : Nat}
    (hi : i < c.length) (hev : i % 2 = 0) :
    mlookup (flipUpdates c) (cyc c i) = some (cyc c (i + c.length - 1)) := by
  have := mlookup_of_mem (keysNodup_flipUpdates hnd)
    ((mem_flipUpdates_cyc hl).mpr ⟨i, hi, hev, rfl⟩)
  exact this

theorem mlookup_flipUpdates_none {c : List V} (hl : c.length ≠ 0) {x : V}
    (hx : ∀ i, i < c.length → i % 2 = 0 → x ≠ cyc c i) :
    mlookup (flipUpdates c) x = none := by
  rw [mlookup_eq_none_iff]
  intro hmem
  rcases List.mem_map.mp hmem with ⟨p, hp, he⟩
  rcases (mem_flipUpdates_cyc hl).mp hp with ⟨i, hi, hev, hpe⟩
  exact hx i hi hev (by rw [← he, hpe])

/-! ## Cycle flip lemmas -/

theorem flipCycle_eq_map {g : BGraph} {m : Pairs} {c : List V} (hn : NormCycle g m c) :
    flipCycle m c = m.map (updMany (flipUpdates c)) := by
  rw [flipCycle_eq_msetMany]
  exact msetMany_eq_map _ m (keysNodup_flipUpdates hn.nodup) (flipUpdates_keys_mem hn)

theorem flipCycle_mkeys {g : BGraph} {m : Pairs} {c : List V} (hn : NormCycle g m c) :
    mkeys (flipCycle m c) = mkeys m := by
  rw [flipCycle_eq_map hn]
  exact mkeys_map_keyfix m _ (updMany_keyfix _)

theorem flipCycle_length {g : BGraph} {m : Pairs} {c : List V} (hn : NormCycle g m c) :
    (flipCycle m c).length = m.length := by
  rw [flipCycle_eq_map hn, List.length_map]

theorem flipCycle_keysNodup {g : BGraph} {m : Pairs} {c : List V} (hn : NormCycle g m c)
    (hm : keysNodup m) : keysNodup (flipCycle m c) := by
  unfold keysNodup
  rw [flipCycle_mkeys hn]
  exact hm

theorem flipCycle_mlookup_even {g : BGraph} {m : Pairs} {c : List V} (hn : NormCycle g m c)
    {i : Nat} (hi : i < c.length) (hev : i % 2 = 0) :
    mlookup (flipCycle m c) (cyc c i) = some (cyc c (i + c.length - 1)) := by
  rw [flipCycle_eq_map hn, mlookup_map_keyfix _ _ (updMany_keyfix _), hn.evenMatched i hi hev]
  show some (updMany (flipUpdates c) (cyc c i, cyc c (i + 1))).2 = _
  unfold updMany
  rw [show ((cyc c i, cyc c (i + 1)).1 : V) = cyc c i from rfl,
    mlookup_flipUpdates_even hn.nodup (by have := hn.lenGe; omega) hi hev]

theorem flipCycle_mlookup_other {g : BGraph} {m : Pairs} {c : List V} (hn : NormCycle g m c)
    {x : V} (hx : ∀ i, i < c.length → i % 2 = 0 → x ≠ cyc c i) :
    mlookup (flipCycle m c) x = mlookup m x := by
  rw [flipCycle_eq_map hn, mlookup_map_keyfix _ _ (updMany_keyfix _)]
  cases hmx : mlookup m x with
  | none => rfl
  | some v =>
    show some (updMany (flipUpdates c) (x, v)).2 = some v
    unfold updMany
    rw [show ((x, v).1 : V) = x from rfl,
      mlookup_flipUpdates_none (by have := hn.lenGe; omega) hx]

theorem flipCycle_stable {g : BGraph} {m : Pairs} {c : List V} (hn : NormCycle g m c)
    {x : V} (hx : x ∉ g.tops) : mlookup (flipCycle m c) x = mlookup m x := by
  apply flipCycle_mlookup_other hn
  intro i hi hev he
  exact hx (he ▸ hn.evenTop i hi hev)

theorem flip_new_pair_edge {g : BGraph} {m : Pairs} {c : List V} (hn : NormCycle g m c)
    {i : Nat} (hi : i < c.length) (hev : i % 2 = 0) :
    (cyc c i, cyc c (i + c.length - 1)) ∈ g.edges := by
  have hlen : 0 < c.length := by have := hn.lenGe; omega
  have hjlt : (i + c.length - 1) % c.length < c.length := Nat.mod_lt _ hlen
  have hjodd : ((i + c.length - 1) % c.length) % 2 = 1 := prev_mod_odd hn.lenEven hlen hi hev
  have hedge := hn.oddEdge _ hjlt hjodd
  have h1 : cyc c ((i + c.length - 1) % c.length + 1) = cyc c i := by
    apply cyc_eq_of_mod_eq
    rw [Nat.mod_add_mod]
    have h2 : i + c.length - 1 + 1 = i + c.length := by omega
    rw [h2, Nat.add_mod_right]
  have h3 : cyc c ((i + c.length - 1) % c.length) = cyc c (i + c.length - 1) :=
    cyc_mod c _
  rw [h1, h3] at hedge
  exact hedge

theorem flipCycle_mem_cases {g : BGraph} {m : Pairs} {c : List V} (hn : NormCycle g m c)
    {p : V × V} (hp : p ∈ flipCycle m c) :
    p ∈ m ∨ ∃ i, i < c.length ∧ i % 2 = 0 ∧ p = (cyc c i, cyc c (i + c.length - 1)) := by
  have hl : c.length ≠ 0 := by have := hn.lenGe; omega
  rw [flipCycle_eq_map hn] at hp
  rcases List.mem_map.mp hp with ⟨q, hq, he⟩
  unfold updMany at he
  cases hlk : mlookup (flipUpdates c) q.1 with
  | none =>
    rw [hlk] at he
    left
    rw [← he]
    exact hq
  | some v =>
    rw [hlk] at he
    right
    have hmem := mem_of_mlookup hlk
    rcases (mem_flipUpdates_cyc hl).mp hmem with ⟨i, hi, hev, hpe⟩
    have h1 : q.1 = cyc c i := by
      have := congrArg Prod.fst hpe
      simpa using this
    have h2 : v = cyc c (i + c.length - 1) := by
      have := congrArg Prod.snd hpe
      simpa using this
    exact ⟨i, hi, hev, by rw [← he, h1, h2]⟩

theorem flipCycle_pairs_sub {g : BGraph} {m : Pairs} {c : List V} (hn : NormCycle g m c) :
    ∀ p ∈ flipCycle m c, p ∈ m ∨ p ∈ g.edges := by
  intro p hp
  rcases flipCycle_mem_cases hn hp with h | ⟨i, hi, hev, he⟩
  · exact Or.inl h
  · exact Or.inr (he ▸ flip_new_pair_edge hn hi hev)

theorem flipCycle_valsNodup {g : BGraph} {m : Pairs} {c : List V} (hn : NormCycle g m c)
    (hm : MInv m) : valsNodup (flipCycle m c) := by
  have hl : c.length ≠ 0 := by have := hn.lenGe; omega
  have hmnd : m.Nodup := List.Nodup.of_map Prod.fst hm.1
  have hkeyinj : ∀ x ∈ m, ∀ y ∈ m, x.1 = y.1 → x = y :=
    List.inj_on_of_nodup_map hm.1
  have hvalinj : ∀ x ∈ m, ∀ y ∈ m, x.2 = y.2 → x = y :=
    List.inj_on_of_nodup_map hm.2
  have hcontra : ∀ q ∈ m, mlookup (flipUpdates c) q.1 = none →
      ∀ i, i < c.length → i % 2 = 1 → q.2 ≠ cyc c i := by
    intro q hq hnone i hi hodd he
    have hieven : (i - 1) % 2 = 0 := by omega
    have hilt : i - 1 < c.length := by omega
    have hmatch := hn.evenMatched (i - 1) hilt hieven
    have hstep : i - 1 + 1 = i := by omega
    rw [hstep] at hmatch
    have hpairm : (cyc c (i - 1), cyc c i) ∈ m := mem_of_mlookup hmatch
    have hqe : q = (cyc c (i - 1), cyc c i) := hvalinj q hq _ hpairm (by rw [he])
    have : mlookup (flipUpdates c) (cyc c (i - 1)) = some _ :=
      mlookup_flipUpdates_even hn.nodup hl hilt hieven
    rw [hqe] at hnone
    rw [show ((cyc c (i - 1), cyc c i).1 : V) = cyc c (i - 1) from rfl] at hnone
    rw [hnone] at this
    exact Option.noConfusion this
  rw [flipCycle_eq_map hn]
  unfold valsNodup mvals
  rw [List.map_map]
  apply List.Nodup.map_on ?_ hmnd
  intro p hp q hq he
  simp only [Function.comp] at he
  unfold updMany at he
  cases hp1 : mlookup (flipUpdates c) p.1 with
  | none =>
    cases hq1 : mlookup (flipUpdates c) q.1 with
    | none =>
      rw [hp1, hq1] at he
      exact hvalinj p hp q hq he
    | some w =>
      rw [hp1, hq1] at he
      rcases (mem_flipUpdates_cyc hl).mp (mem_of_mlookup hq1) with ⟨j, hj, hjev, hje⟩
      have hw : w = cyc c (j + c.length - 1) := by
        have := congrArg Prod.snd hje
        simpa using this
      have hjodd : ((j + c.length - 1) % c.length) % 2 = 1 :=
        prev_mod_odd hn.lenEven (by omega) hj hjev
      have hjlt : (j + c.length - 1) % c.length < c.length := Nat.mod_lt _ (by omega)
      have : p.2 = cyc c ((j + c.length - 1) % c.length) := by
        rw [cyc_mod]
        rw [← hw]
        exact he
      exact absurd this (hcontra p hp hp1 _ hjlt hjodd)
  | some v =>
    cases hq1 : mlookup (flipUpdates c) q.1 with
    | none =>
      rw [hp1, hq1] at he
      rcases (mem_flipUpdates_cyc hl).mp (mem_of_mlookup hp1) with ⟨i, hi, hiev, hie⟩
      have hv : v = cyc c (i + c.length - 1) := by
        have := congrArg Prod.snd hie
        simpa using this
      have hiodd : ((i + c.length - 1) % c.length) % 2 = 1 :=
        prev_mod_odd hn.lenEven (by omega) hi hiev
      have hilt : (i + c.length - 1) % c.length < c.length := Nat.mod_lt _ (by omega)
      have : q.2 = cyc c ((i + c.length - 1) % c.length) := by
        rw [cyc_mod]
        rw [← hv]
        exact he.symm
      exact absurd this (hcontra q hq hq1 _ hilt hiodd)
    | some w =>
      rw [hp1, hq1] at he
      rcases (mem_flipUpdates_cyc hl).mp (mem_of_mlookup hp1) with ⟨i, hi, hiev, hie⟩
      rcases (mem_flipUpdates_cyc hl).mp (mem_of_mlookup hq1) with ⟨j, hj, hjev, hje⟩
      have hv : v = cyc c (i + c.length - 1) := by
        have := congrArg Prod.snd hie
        simpa using this
      have hw : w = cyc c (j + c.length - 1) := by
        have := congrArg Prod.snd hje
        simpa using this
      have hvw : cyc c ((i + c.length - 1) % c.length)
          = cyc c ((j + c.length - 1) % c.length) := by
        rw [cyc_mod, cyc_mod, ← hv, ← hw]
        exact he
      have hij : i = j :=
        @prev_idx_inj c.length i j (by omega) hi hj
          (cyc_inj hn.nodup (Nat.mod_lt _ (by omega)) (Nat.mod_lt _ (by omega)) hvw)
      have hp1e : p.1 = cyc c i := by
        have := congrArg Prod.fst hie
        simpa using this
      have hq1e : q.1 = cyc c j := by
        have := congrArg Prod.fst hje
        simpa using this
      exact hkeyinj p hp q hq (by rw [hp1e, hq1e, hij])

theorem flipCycle_MInv {g : BGraph} {m : Pairs} {c : List V} (hn : NormCycle g m c)
    (hm : MInv m) : MInv (flipCycle m c) :=
  ⟨flipCycle_keysNodup hn hm.1, flipCycle_valsNodup hn hm⟩

theorem flipCycle_EmInv {g : BGraph} {m : Pairs} {c : List V} (hn : NormCycle g m c)
    (hm : MInv m) : EmInv g m (flipCycle m c) :=
  ⟨flipCycle_MInv hn hm, flipCycle_length hn, flipCycle_pairs_sub hn,
    fun _ hx => flipCycle_stable hn hx⟩

/-! ## Further dictionary lemmas for the path rewiring -/

theorem mkeys_mset_not_mem {m : Pairs} {k : V} (h : k ∉ mkeys m) (v : V) :
    mkeys (mset m k v) = mkeys m ++ [k] := by
  unfold mset
  rw [if_neg (fun hs => h ((mlookup_isSome_iff m k).mp hs))]
  unfold mkeys
  rw [List.map_append]
  rfl

theorem mvals_mset_not_mem {m : Pairs} {k : V} (h : k ∉ mkeys m) (v : V) :
    mvals (mset m k v) = mvals m ++ [v] := by
  unfold mset
  rw [if_neg (fun hs => h ((mlookup_isSome_iff m k).mp hs))]
  unfold mvals
  rw [List.map_append]
  rfl

theorem length_mset_not_mem {m : Pairs} {k : V} (h : k ∉ mkeys m) (v : V) :
    (mset m k v).length = m.length + 1 := by
  unfold mset
  rw [if_neg (fun hs => h ((mlookup_isSome_iff m k).mp hs))]
  rw [List.length_append]
  rfl

theorem mset_mem_cases {m : Pairs} {k : V} (h : k ∉ mkeys m) (v : V) :
    ∀ p ∈ mset m k v, p ∈ m ∨ p = (k, v) := by
  intro p hp
  unfold mset at hp
  rw [if_neg (fun hs => h ((mlookup_isSome_iff m k).mp hs))] at hp
  rcases List.mem_append.mp hp with h1 | h1
  · exact Or.inl h1
  · exact Or.inr (by simpa using h1)

theorem mdel_sublist (m : Pairs) (k : V) : (mdel m k).Sublist m :=
  List.filter_sublist m

theorem mvals_mdel_nodup {m : Pairs} (hv : valsNodup m) (k : V) : valsNodup (mdel m k) := by
  unfold valsNodup mvals
  exact ((mdel_sublist m k).map Prod.snd).nodup hv

theorem mkeys_mdel_nodup {m : Pairs} (hk : keysNodup m) (k : V) : keysNodup (mdel m k) := by
  unfold keysNodup mkeys
  exact ((mdel_sublist m k).map Prod.fst).nodup hk

theorem mdel_val_not_mem {m : Pairs} (hm : MInv m) {t b : V}
    (h : mlookup m t = some b) : b ∉ mvals (mdel m t) := by
  intro hb
  rcases List.mem_map.mp hb with ⟨q, hq, he⟩
  have hqm : q ∈ m := mdel_sub m t q hq
  have hpair : (t, b) ∈ m := mem_of_mlookup h
  have : q = (t, b) := List.inj_on_of_nodup_map hm.2 hqm hpair (by rw [he])
  have hq1 : q.1 ≠ t := by
    have := (List.mem_filter.mp hq).2
    simpa using this
  rw [this] at hq1
  exact hq1 rfl

/-! ## Graph operation lemmas -/

theorem gwe_edges_sub (g : BGraph) (e : V × V) :
    ∀ p ∈ (graph_without_edge g e).edges, p ∈ g.edges := by
  intro p hp
  exact (List.mem_filter.mp hp).1

theorem gwe_tops (g : BGraph) (e : V × V) : (graph_without_edge g e).tops = g.tops := rfl

theorem gwe_bots (g : BGraph) (e : V × V) : (graph_without_edge g e).bots = g.bots := rfl

theorem gwe_e_not_mem (g : BGraph) (e : V × V) : e ∉ (graph_without_edge g e).edges := by
  intro h
  have := (List.mem_filter.mp h).2
  simp at this

theorem WFG_gwe {g : BGraph} (hw : WFG g) (e : V × V) : WFG (graph_without_edge g e) where
  disj := hw.disj
  edgeTop := fun p hp => hw.edgeTop p (gwe_edges_sub g e p hp)
  edgeBot := fun p hp => hw.edgeBot p (gwe_edges_sub g e p hp)

theorem gwne_edges_sub (g : BGraph) (e : V × V) :
    ∀ p ∈ (graph_without_nodes_of_edge g e).edges, p ∈ g.edges := by
  intro p hp
  exact (List.mem_filter.mp hp).1

theorem gwne_tops_sub (g : BGraph) (e : V × V) :
    ∀ v ∈ (graph_without_nodes_of_edge g e).tops, v ∈ g.tops := by
  intro v hv
  exact (List.mem_filter.mp hv).1

theorem gwne_bots_sub (g : BGraph) (e : V × V) :
    ∀ v ∈ (graph_without_nodes_of_edge g e).bots, v ∈ g.bots := by
  intro v hv
  exact (List.mem_filter.mp hv).1

theorem gwne_e1_not_top (g : BGraph) (e : V × V) :
    e.1 ∉ (graph_without_nodes_of_edge g e).tops := by
  intro h
  have := (List.mem_filter.mp h).2
  simp at this

theorem gwne_edge_avoid (g : BGraph) (e : V × V) :
    ∀ p ∈ (graph_without_nodes_of_edge g e).edges,
      p.1 ≠ e.1 ∧ p.1 ≠ e.2 ∧ p.2 ≠ e.1 ∧ p.2 ≠ e.2 := by
  intro p hp
  have := (List.mem_filter.mp hp).2
  simp only [Bool.and_eq_true, decide_eq_true_eq] at this
  exact ⟨this.1.1.1, this.1.1.2, this.1.2, this.2⟩

theorem WFG_gwne {g : BGraph} (hw : WFG g) (e : V × V) :
    WFG (graph_without_nodes_of_edge g e) where
  disj := by
    intro v hv
    intro hb
    exact hw.disj v (gwne_tops_sub g e v hv) (gwne_bots_sub g e v hb)
  edgeTop := by
    intro p hp
    have h1 := hw.edgeTop p (gwne_edges_sub g e p hp)
    have h2 := gwne_edge_avoid g e p hp
    apply List.mem_filter.mpr
    exact ⟨h1, by simp [h2.1, h2.2.1]⟩
  edgeBot := by
    intro p hp
    have h1 := hw.edgeBot p (gwne_edges_sub g e p hp)
    have h2 := gwne_edge_avoid g e p hp
    apply List.mem_filter.mpr
    exact ⟨h1, by simp [h2.2.2.1, h2.2.2.2]⟩

theorem scc_arcs_sub (d : DGraph) :
    ∀ a ∈ (strongly_connected_components_decomposition d).arcs, a ∈ d.arcs := by
  intro a ha
  exact (List.mem_filter.mp ha).1

theorem trimmed_edges_sub {g : BGraph} {m : Pairs} (hw : WFG g) :
    ∀ p ∈ (to_undirected (strongly_connected_components_decomposition
      (create_directed_matching_graph g m))).edges, p ∈ g.edges := by
  intro p hp
  rcases List.mem_map.mp hp with ⟨a, ha, he⟩
  have harc : a ∈ (create_directed_matching_graph g m).arcs := scc_arcs_sub _ a ha
  have htopeq : (strongly_connected_components_decomposition
      (create_directed_matching_graph g m)).tops = g.tops := rfl
  rw [htopeq] at he
  rcases arc_sides hw harc with ⟨h1, -, h3, -⟩ | ⟨h1, -, h3, -⟩
  · rw [← he, if_pos h1]
    exact h3
  · have : a.1 ∉ g.tops := fun hc => hw.disj a.1 hc h1
    rw [← he, if_neg this]
    exact h3

theorem trimmed_tops {g : BGraph} {m : Pairs} :
    (to_undirected (strongly_connected_components_decomposition
      (create_directed_matching_graph g m))).tops = g.tops := rfl

theorem trimmed_bots {g : BGraph} {m : Pairs} :
    (to_undirected (strongly_connected_components_decomposition
      (create_directed_matching_graph g m))).bots = g.bots := rfl

theorem WFG_trimmed {g : BGraph} {m : Pairs} (hw : WFG g) :
    WFG (to_undirected (strongly_connected_components_decomposition
      (create_directed_matching_graph g m))) where
  disj := hw.disj
  edgeTop := fun p hp => hw.edgeTop p (trimmed_edges_sub hw p hp)
  edgeBot := fun p hp => hw.edgeBot p (trimmed_edges_sub hw p hp)

/-! ## Emission invariant composition -/

theorem EmInv_refl {g : BGraph} {m : Pairs} (hm : MInv m) : EmInv g m m :=
  ⟨hm, rfl, fun p hp => Or.inl hp, fun _ _ => rfl⟩

theorem EmInv_trans {g gs : BGraph} {m mmid N : Pairs}
    (hE : ∀ p ∈ gs.edges, p ∈ g.edges) (hT : ∀ v ∈ gs.tops, v ∈ g.tops)
    (hmid : EmInv g m mmid) (h : EmInv gs mmid N) : EmInv g m N := by
  refine ⟨h.1, ?_, ?_, ?_⟩
  · rw [h.2.1, hmid.2.1]
  · intro p hp
    rcases h.2.2.1 p hp with h1 | h1
    · rcases hmid.2.2.1 p h1 with h2 | h2
      · exact Or.inl h2
      · exact Or.inr h2
    · exact Or.inr (hE p h1)
  · intro x hx
    have hxs : x ∉ gs.tops := fun hc => hx (hT x hc)
    rw [h.2.2.2 x hxs, hmid.2.2.2 x hx]

/-! ## Path finder soundness -/

theorem mem_neighbors_elim {g : BGraph} {v x : V} (h : x ∈ neighbors g v) :
    ∃ p ∈ g.edges, (p.1 = v ∧ x = p.2) ∨ (p.2 = v ∧ x = p.1) := by
  unfold neighbors at h
  rcases List.mem_filterMap.mp h with ⟨p, hp, he⟩
  by_cases h1 : p.1 = v
  · rw [if_pos h1] at he
    exact ⟨p, hp, Or.inl ⟨h1, by injection he with h2; exact h2.symm⟩⟩
  · rw [if_neg h1] at he
    by_cases h2 : p.2 = v
    · rw [if_pos h2] at he
      exact ⟨p, hp, Or.inr ⟨h2, by injection he with h3; exact h3.symm⟩⟩
    · rw [if_neg h2] at he
      exact Option.noConfusion he

theorem findPath_sound {g : BGraph} {m : Pairs} {path : List V}
    (h : _find_feaseable_two_edge_path g m = some path) :
    path.getD 0 0 ∈ g.tops ∧ mlookup m (path.getD 0 0) = some (path.getD 1 0) ∧
      path.getD 2 0 ∈ neighbors g (path.getD 1 0) ∧ mlookup m (path.getD 2 0) = none := by
  unfold _find_feaseable_two_edge_path at h
  rcases List.exists_of_findSome?_eq_some h with ⟨node1, hmem, hf⟩
  by_cases hcond : side g node1 = LEFT ∧ (mlookup m node1).isSome
  · rw [if_pos hcond] at hf
    cases hlk : mlookup m node1 with
    | none => rw [hlk] at hf; exact Option.noConfusion hf
    | some right =>
      rw [hlk] at hf
      dsimp only at hf
      by_cases hin : right ∈ allNodes g
      · rw [if_pos hin] at hf
        cases hfind : (neighbors g right).find? (fun n2 => decide (mlookup m n2 = none)) with
        | none => rw [hfind] at hf; exact Option.noConfusion hf
        | some left2 =>
          rw [hfind] at hf
          have hpath : path = [node1, right, left2] := by
            injection hf with h2
            exact h2.symm
          have hn2 : mlookup m left2 = none := by
            have := List.find?_some hfind
            simpa using this
          have hn2mem : left2 ∈ neighbors g right := List.mem_of_find?_eq_some hfind
          rw [hpath]
          refine ⟨(side_eq_left_iff g node1).mp hcond.1, ?_, ?_, ?_⟩
          · exact hlk
          · exact hn2mem
          · exact hn2
      · rw [if_neg hin] at hf
        exact Option.noConfusion hf
  · rw [if_neg hcond] at hf
    exact Option.noConfusion hf

theorem findCycle_sound {d : DGraph} {m : Pairs} {raw : List V}
    (h : find_cycle_with_edge_of_matching d m = some raw) : isMatchedCycle d m raw = true := by
  unfold find_cycle_with_edge_of_matching at h
  exact List.find?_some h

/-! ## Path rewiring package -/

theorem rewire_facts {T B : List V} {g : BGraph} {m : Pairs} {path : List V}
    (hg : GInv T B g m) (h : _find_feaseable_two_edge_path g m = some path) :
    (path.getD 2 0, path.getD 1 0) ∈ g.edges ∧
      path.getD 0 0 ∈ g.tops ∧ path.getD 2 0 ∈ g.tops ∧
      mlookup m (path.getD 0 0) = some (path.getD 1 0) ∧
      mlookup m (path.getD 2 0) = none := by
  obtain ⟨ht1, hlk1, hnb, hlk2⟩ := findPath_sound h
  have hpairm : (path.getD 0 0, path.getD 1 0) ∈ m := mem_of_mlookup hlk1
  have hbB : path.getD 1 0 ∈ B := (hg.msides _ hpairm).2
  rcases mem_neighbors_elim hnb with ⟨p, hp, hcase⟩
  rcases hcase with ⟨h1, h2⟩ | ⟨h1, h2⟩
  · have : p.1 ∈ g.tops := hg.wfg.edgeTop p hp
    rw [h1] at this
    exact absurd hbB (hg.disjTB _ (hg.topsSub _ this))
  · have hpe : p = (path.getD 2 0, path.getD 1 0) := by
      calc p = (p.1, p.2) := rfl
      _ = (path.getD 2 0, path.getD 1 0) := by rw [← h1, ← h2]
    rw [hpe] at hp
    exact ⟨hp, ht1, hg.wfg.edgeTop _ hp, hlk1, hlk2⟩

theorem rewire_EmInv {T B : List V} {g : BGraph} {m : Pairs} {path : List V}
    (hg : GInv T B g m) (h : _find_feaseable_two_edge_path g m = some path) :
    EmInv g m (mset (mdel m (path.getD 0 0)) (path.getD 2 0) (path.getD 1 0)) := by
  obtain ⟨hedge, ht1, ht2, hlk1, hlk2⟩ := rewire_facts hg h
  have ht1k : path.getD 0 0 ∈ mkeys m := by
    rw [← mlookup_isSome_iff, hlk1]
    rfl
  have ht2k : path.getD 2 0 ∉ mkeys m := (mlookup_eq_none_iff m _).mp hlk2
  have ht2k' : path.getD 2 0 ∉ mkeys (mdel m (path.getD 0 0)) := by
    intro hc
    rcases List.mem_map.mp hc with ⟨q, hq, he⟩
    exact ht2k (he ▸ List.mem_map_of_mem Prod.fst (mdel_sub m _ q hq))
  have hne12 : path.getD 0 0 ≠ path.getD 2 0 := by
    intro he
    rw [he] at ht1k
    exact ht2k ht1k
  refine ⟨⟨?_, ?_⟩, ?_, ?_, ?_⟩
  · unfold keysNodup
    rw [mkeys_mset_not_mem ht2k' _]
    rw [List.nodup_append]
    refine ⟨mkeys_mdel_nodup hg.minv.1 _, List.nodup_singleton _, ?_⟩
    intro a ha hb
    rcases List.mem_singleton.mp hb with rfl
    exact ht2k' ha
  · unfold valsNodup
    rw [mvals_mset_not_mem ht2k' _]
    rw [List.nodup_append]
    refine ⟨mvals_mdel_nodup hg.minv.2 _, List.nodup_singleton _, ?_⟩
    intro a ha hb
    rcases List.mem_singleton.mp hb with rfl
    exact mdel_val_not_mem hg.minv hlk1 ha
  · rw [length_mset_not_mem ht2k' _, length_mdel hg.minv.1 ht1k]
  · intro p hp
    rcases mset_mem_cases ht2k' _ p hp with h1 | h1
    · exact Or.inl (mdel_sub m _ p h1)
    · exact Or.inr (h1 ▸ hedge)
  · intro x hx
    have hx1 : x ≠ path.getD 0 0 := fun he => hx (he ▸ ht1)
    have hx2 : x ≠ path.getD 2 0 := fun he => hx (he ▸ ht2)
    rw [mlookup_mset_ne _ _ _ hx2, mlookup_mdel, if_neg hx1]

/-! ## Iterator unfolding equations -/

theorem enumMaxIter_cycle {fuel : Nat} {g : BGraph} {m : Pairs} {d : DGraph} {raw : List V}
    {c : List V} {e : V × V} {mp : Pairs} {gp gm : BGraph}
    (hne : g.edges.isEmpty = false)
    (hcy : find_cycle_with_edge_of_matching d m = some raw)
    (hc : c = start_cycle_with_left g raw)
    (he : e = (c.getD 0 0, c.getD 1 0))
    (hmp : mp = flipCycle m c)
    (hgp : gp = graph_without_nodes_of_edge g e)
    (hgm : gm = graph_without_edge g e) :
    enumMaxIter (fuel + 1) g m d =
      mp :: (enumMaxIter fuel gp m (create_directed_matching_graph gp m) ++
        enumMaxIter fuel gm mp (create_directed_matching_graph gm mp)) := by
  subst hc he hmp hgp hgm
  rw [enumMaxIter, if_neg (by rw [hne]; exact Bool.false_ne_true), hcy]

theorem enumMaxIter_path {fuel : Nat} {g : BGraph} {m : Pairs} {d : DGraph} {path : List V}
    {mp : Pairs} {e : V × V} {gp gm : BGraph}
    (hne : g.edges.isEmpty = false)
    (hcy : find_cycle_with_edge_of_matching d m = none)
    (hpa : _find_feaseable_two_edge_path g m = some path)
    (hmp : mp = mset (mdel m (path.getD 0 0)) (path.getD 2 0) (path.getD 1 0))
    (he : e = (path.getD 2 0, path.getD 1 0))
    (hgp : gp = graph_without_nodes_of_edge g e)
    (hgm : gm = graph_without_edge g e) :
    enumMaxIter (fuel + 1) g m d =
      mp :: (enumMaxIter fuel gp mp (create_directed_matching_graph gp mp) ++
        enumMaxIter fuel gm m (create_directed_matching_graph gm m)) := by
  subst hmp he hgp hgm
  rw [enumMaxIter, if_neg (by rw [hne]; exact Bool.false_ne_true), hcy, hpa]

theorem enumMaxIter_done {fuel : Nat} {g : BGraph} {m : Pairs} {d : DGraph}
    (hcy : find_cycle_with_edge_of_matching d m = none)
    (hpa : _find_feaseable_two_edge_path g m = none) :
    enumMaxIter (fuel + 1) g m d = [] := by
  rw [enumMaxIter]
  split
  · rfl
  · rw [hcy, hpa]

theorem enumPerfectIter_cycle {fuel : Nat} {g : BGraph} {m : Pairs} {raw : List V}
    {c : List V} {e : V × V} {mp : Pairs} {gp gm : BGraph}
    (hne : g.edges.isEmpty = false)
    (hcy : find_cycle_with_edge_of_matching (create_directed_matching_graph g m) m = some raw)
    (hc : c = start_cycle_with_left g raw)
    (he : e = (c.getD 0 0, c.getD 1 0))
    (hmp : mp = flipCycle m c)
    (hgp : gp = to_undirected (strongly_connected_components_decomposition
      (create_directed_matching_graph (graph_without_nodes_of_edge g e) m)))
    (hgm : gm = to_undirected (strongly_connected_components_decomposition
      (create_directed_matching_graph (graph_without_edge g e) mp))) :
    enumPerfectIter (fuel + 1) g m =
      mp :: (enumPerfectIter fuel gp m ++ enumPerfectIter fuel gm mp) := by
  subst hc he hmp hgp hgm
  rw [enumPerfectIter, if_neg (by rw [hne]; exact Bool.false_ne_true), hcy]

theorem enumPerfectIter_nocycle {fuel : Nat} {g : BGraph} {m : Pairs}
    (hcy : find_cycle_with_edge_of_matching (create_directed_matching_graph g m) m = none) :
    enumPerfectIter (fuel + 1) g m = [] := by
  rw [enumPerfectIter]
  split
  · rfl
  · rw [hcy]

/-! ## The master emission invariant -/

theorem msides_of_EmInv {T B : List V} {g : BGraph} {m N : Pairs} (hg : GInv T B g m)
    (h : EmInv g m N) : ∀ p ∈ N, p.1 ∈ T ∧ p.2 ∈ B := by
  intro p hp
  rcases h.2.2.1 p hp with h1 | h1
  · exact hg.msides p h1
  · exact ⟨hg.topsSub _ (hg.wfg.edgeTop p h1), hg.botsSub _ (hg.wfg.edgeBot p h1)⟩

theorem GInv_gwne {T B : List V} {g : BGraph} {m m2 : Pairs} (hg : GInv T B g m)
    (hm2 : MInv m2) (hs2 : ∀ p ∈ m2, p.1 ∈ T ∧ p.2 ∈ B) (e : V × V) :
    GInv T B (graph_without_nodes_of_edge g e) m2 where
  disjTB := hg.disjTB
  topsSub := fun v hv => hg.topsSub v (gwne_tops_sub g e v hv)
  botsSub := fun v hv => hg.botsSub v (gwne_bots_sub g e v hv)
  wfg := WFG_gwne hg.wfg e
  minv := hm2
  msides := hs2

theorem GInv_gwe {T B : List V} {g : BGraph} {m m2 : Pairs} (hg : GInv T B g m)
    (hm2 : MInv m2) (hs2 : ∀ p ∈ m2, p.1 ∈ T ∧ p.2 ∈ B) (e : V × V) :
    GInv T B (graph_without_edge g e) m2 where
  disjTB := hg.disjTB
  topsSub := fun v hv => hg.topsSub v hv
  botsSub := fun v hv => hg.botsSub v hv
  wfg := WFG_gwe hg.wfg e
  minv := hm2
  msides := hs2

theorem GInv_trimmed {T B : List V} {g : BGraph} {m m2 : Pairs} (m3 : Pairs)
    (hg : GInv T B g m) (hm2 : MInv m2) (hs2 : ∀ p ∈ m2, p.1 ∈ T ∧ p.2 ∈ B) :
    GInv T B (to_undirected (strongly_connected_components_decomposition
      (create_directed_matching_graph g m3))) m2 where
  disjTB := hg.disjTB
  topsSub := fun v hv => hg.topsSub v hv
  botsSub := fun v hv => hg.botsSub v hv
  wfg := WFG_trimmed hg.wfg
  minv := hm2
  msides := hs2

theorem maxIter_EmInv (fuel : Nat) (T B : List V) :
    ∀ (g : BGraph) (m : Pairs) (d : DGraph), GInv T B g m →
      (∀ a ∈ d.arcs, a ∈ (create_directed_matching_graph g m).arcs) →
      ∀ N ∈ enumMaxIter fuel g m d, EmInv g m N := by
  induction fuel with
  | zero =>
    intro g m d _ _ N hN
    exact absurd hN (List.not_mem_nil N)
  | succ fuel ih =>
    intro g m d hg hsub N hN
    by_cases hE : g.edges.isEmpty = true
    · rw [enumMaxIter, if_pos hE] at hN
      exact absurd hN (List.not_mem_nil N)
    · have hne : g.edges.isEmpty = false := Bool.eq_false_iff.mpr hE
      cases hcy : find_cycle_with_edge_of_matching d m with
      | some raw =>
        rw [enumMaxIter_cycle hne hcy rfl rfl rfl rfl rfl] at hN
        have hn : NormCycle g m (start_cycle_with_left g raw) :=
          normCycle_of_found hg.wfg hsub (findCycle_sound hcy)
        have hflip : EmInv g m (flipCycle m (start_cycle_with_left g raw)) :=
          flipCycle_EmInv hn hg.minv
        rcases List.mem_cons.mp hN with rfl | hN2
        · exact hflip
        · rcases List.mem_append.mp hN2 with hN3 | hN3
          · have hgp := GInv_gwne hg hg.minv hg.msides
              ((start_cycle_with_left g raw).getD 0 0, (start_cycle_with_left g raw).getD 1 0)
            have := ih _ m _ hgp (fun a ha => ha) N hN3
            exact EmInv_trans (gwne_edges_sub g _) (gwne_tops_sub g _)
              (EmInv_refl hg.minv) this
          · have hsflip := msides_of_EmInv hg hflip
            have hgm := GInv_gwe hg (flipCycle_MInv hn hg.minv) hsflip
              ((start_cycle_with_left g raw).getD 0 0, (start_cycle_with_left g raw).getD 1 0)
            have := ih _ _ _ hgm (fun a ha => ha) N hN3
            exact EmInv_trans (gwe_edges_sub g _) (fun v hv => hv) hflip this
      | none =>
        cases hpa : _find_feaseable_two_edge_path g m with
        | none =>
          rw [enumMaxIter_done hcy hpa] at hN
          exact absurd hN (List.not_mem_nil N)
        | some path =>
          rw [enumMaxIter_path hne hcy hpa rfl rfl rfl rfl] at hN
          have hrew : EmInv g m
              (mset (mdel m (path.getD 0 0)) (path.getD 2 0) (path.getD 1 0)) :=
            rewire_EmInv hg hpa
          rcases List.mem_cons.mp hN with rfl | hN2
          · exact hrew
          · rcases List.mem_append.mp hN2 with hN3 | hN3
            · have hsrew := msides_of_EmInv hg hrew
              have hgp := GInv_gwne hg hrew.1 hsrew (path.getD 2 0, path.getD 1 0)
              have := ih _ _ _ hgp (fun a ha => ha) N hN3
              exact EmInv_trans (gwne_edges_sub g _) (gwne_tops_sub g _) hrew this
            · have hgm := GInv_gwe hg hg.minv hg.msides (path.getD 2 0, path.getD 1 0)
              have := ih _ _ _ hgm (fun a ha => ha) N hN3
              exact EmInv_trans (gwe_edges_sub g _) (fun v hv => hv)
                (EmInv_refl hg.minv) this

theorem perfectIter_EmInv (fuel : Nat) (T B : List V) :
    ∀ (g : BGraph) (m : Pairs), GInv T B g m →
      ∀ N ∈ enumPerfectIter fuel g m, EmInv g m N := by
  induction fuel with
  | zero =>
    intro g m _ N hN
    exact absurd hN (List.not_mem_nil N)
  | succ fuel ih =>
    intro g m hg N hN
    by_cases hE : g.edges.isEmpty = true
    · rw [enumPerfectIter, if_pos hE] at hN
      exact absurd hN (List.not_mem_nil N)
    · have hne : g.edges.isEmpty = false := Bool.eq_false_iff.mpr hE
      cases hcy : find_cycle_with_edge_of_matching (create_directed_matching_graph g m) m with
      | none =>
        rw [enumPerfectIter_nocycle hcy] at hN
        exact absurd hN (List.not_mem_nil N)
      | some raw =>
        rw [enumPerfectIter_cycle hne hcy rfl rfl rfl rfl rfl] at hN
        have hn : NormCycle g m (start_cycle_with_left g raw) :=
          normCycle_of_found hg.wfg (fun a ha => ha) (findCycle_sound hcy)
        have hflip : EmInv g m (flipCycle m (start_cycle_with_left g raw)) :=
          flipCycle_EmInv hn hg.minv
        rcases List.mem_cons.mp hN with rfl | hN2
        · exact hflip
        · rcases List.mem_append.mp hN2 with hN3 | hN3
          · have hgp := GInv_trimmed m
              (GInv_gwne hg hg.minv hg.msides
                ((start_cycle_with_left g raw).getD 0 0,
                  (start_cycle_with_left g raw).getD 1 0))
              hg.minv hg.msides
            have := ih _ m hgp N hN3
            refine EmInv_trans ?_ ?_ (EmInv_refl hg.minv) this
            · intro p hp
              exact gwne_edges_sub g _ p (trimmed_edges_sub (WFG_gwne hg.wfg _) p hp)
            · intro v hv
              exact gwne_tops_sub g _ v hv
          · have hsflip := msides_of_EmInv hg hflip
            have hgm := GInv_trimmed (flipCycle m (start_cycle_with_left g raw))
              (GInv_gwe hg (flipCycle_MInv hn hg.minv) hsflip
                ((start_cycle_with_left g raw).getD 0 0,
                  (start_cycle_with_left g raw).getD 1 0))
              (flipCycle_MInv hn hg.minv) hsflip
            have := ih _ _ hgm N hN3
            refine EmInv_trans ?_ ?_ hflip this
            · intro p hp
              exact gwe_edges_sub g _ p (trimmed_edges_sub (WFG_gwe hg.wfg _) p hp)
            · intro v hv
              exact hv

/-! ## Distinctness of emitted matchings -/

theorem ne_toFinset_of_mem {N1 N2 : Pairs} {a : V × V} (h1 : a ∈ N1) (h2 : a ∉ N2) :
    N1.toFinset ≠ N2.toFinset := by
  intro he
  apply h2
  rw [← List.mem_toFinset, ← he, List.mem_toFinset]
  exact h1

theorem EmInv_stale_mem {gs : BGraph} {m N : Pairs} {e : V × V} (hm : keysNodup m)
    (hEm : EmInv gs m N) (hstale : e.1 ∉ gs.tops) (hmem : e ∈ m) : e ∈ N := by
  have hlk : mlookup m e.1 = some e.2 := mlookup_of_mem hm hmem
  have hst := hEm.2.2.2 e.1 hstale
  rw [hlk] at hst
  exact mem_of_mlookup hst

theorem EmInv_avoid_mem {gs : BGraph} {m N : Pairs} {e : V × V}
    (hEm : EmInv gs m N) (h1 : e ∉ m) (h2 : e ∉ gs.edges) : e ∉ N := by
  intro hc
  rcases hEm.2.2.1 e hc with h | h
  exacts [h1 h, h2 h]

theorem normCycle_e_mem {g : BGraph} {m : Pairs} {c : List V} (hn : NormCycle g m c) :
    (c.getD 0 0, c.getD 1 0) ∈ m := by
  have h4 := hn.lenGe
  have h0 := hn.evenMatched 0 (by omega) (by omega)
  have he0 : cyc c 0 = c.getD 0 0 := cyc_getD c (by omega)
  have he1 : cyc c (0 + 1) = c.getD 1 0 := by
    have h01 : (0 : Nat) + 1 = 1 := rfl
    rw [h01]
    exact cyc_getD c (by omega)
  rw [he0, he1] at h0
  exact mem_of_mlookup h0

theorem flipCycle_e_not_mem {g : BGraph} {m : Pairs} {c : List V} (hn : NormCycle g m c)
    (hm : MInv m) : (c.getD 0 0, c.getD 1 0) ∉ flipCycle m c := by
  intro hmem
  have h4 := hn.lenGe
  have hk : keysNodup (flipCycle m c) := flipCycle_keysNodup hn hm.1
  have hlk := mlookup_of_mem hk hmem
  dsimp only at hlk
  have he0 : c.getD 0 0 = cyc c 0 := (cyc_getD c (by omega)).symm
  have he1 : c.getD 1 0 = cyc c 1 := (cyc_getD c (by omega)).symm
  rw [he0, he1] at hlk
  have heven : mlookup (flipCycle m c) (cyc c 0) = some (cyc c (0 + c.length - 1)) :=
    flipCycle_mlookup_even hn (by omega) (by omega)
  rw [heven] at hlk
  have hcyceq : cyc c (0 + c.length - 1) = cyc c 1 := by injection hlk
  have hinj : 0 + c.length - 1 = 1 := cyc_inj hn.nodup (by omega) (by omega) hcyceq
  omega

theorem flipCycle_ne_finset {g : BGraph} {m : Pairs} {c : List V} (hn : NormCycle g m c)
    (hm : MInv m) : (flipCycle m c).toFinset ≠ m.toFinset :=
  fun he => flipCycle_e_not_mem hn hm
    (by rw [← List.mem_toFinset, he, List.mem_toFinset]; exact normCycle_e_mem hn)

theorem rewire_e_mem {m : Pairs} (t1 b t2 : V) :
    (t2, b) ∈ mset (mdel m t1) t2 b := by
  have h := mlookup_mset_self (mdel m t1) t2 b
  exact mem_of_mlookup h

theorem rewire_ep_not_mem {m : Pairs} {t1 t2 : V} (hne : t1 ≠ t2) (b bp : V) :
    (t1, bp) ∉ mset (mdel m t1) t2 b := by
  intro hc
  have hkey : t1 ∈ mkeys (mset (mdel m t1) t2 b) := List.mem_map_of_mem Prod.fst hc
  by_cases ht2 : t2 ∈ mkeys (mdel m t1)
  · rw [mkeys_mset_of_mem ht2 b] at hkey
    rcases List.mem_map.mp hkey with ⟨q, hq, he⟩
    have := (List.mem_filter.mp hq).2
    rw [he] at this
    simp at this
  · rw [mkeys_mset_not_mem ht2 b] at hkey
    rcases List.mem_append.mp hkey with h | h
    · rcases List.mem_map.mp h with ⟨q, hq, he⟩
      have := (List.mem_filter.mp hq).2
      rw [he] at this
      simp at this
    · exact hne (List.mem_singleton.mp h)

theorem pair_not_mem_of_key {m : Pairs} {k v : V} (h : k ∉ mkeys m) : (k, v) ∉ m :=
  fun hc => h (List.mem_map_of_mem Prod.fst hc)

theorem maxIter_nodup (fuel : Nat) (T B : List V) :
    ∀ (g : BGraph) (m : Pairs) (d : DGraph), GInv T B g m →
      (∀ a ∈ d.arcs, a ∈ (create_directed_matching_graph g m).arcs) →
      (enumMaxIter fuel g m d).Pairwise (fun a b => a.toFinset ≠ b.toFinset) ∧
        ∀ N ∈ enumMaxIter fuel g m d, N.toFinset ≠ m.toFinset := by
  induction fuel with
  | zero =>
    intro g m d _ _
    exact ⟨List.Pairwise.nil, fun N hN => absurd hN (List.not_mem_nil N)⟩
  | succ fuel ih =>
    intro g m d hg hsub
    by_cases hE : g.edges.isEmpty = true
    · rw [enumMaxIter, if_pos hE]
      exact ⟨List.Pairwise.nil, fun N hN => absurd hN (List.not_mem_nil N)⟩
    · have hne : g.edges.isEmpty = false := Bool.eq_false_iff.mpr hE
      cases hcy : find_cycle_with_edge_of_matching d m with
      | some raw =>
        rw [enumMaxIter_cycle hne hcy rfl rfl rfl rfl rfl]
        have hn : NormCycle g m (start_cycle_with_left g raw) :=
          normCycle_of_found hg.wfg hsub (findCycle_sound hcy)
        set c := start_cycle_with_left g raw with hcdef
        set e : V × V := (c.getD 0 0, c.getD 1 0) with hedef
        set mp := flipCycle m c with hmpdef
        set gp := graph_without_nodes_of_edge g e with hgpdef
        set gm := graph_without_edge g e with hgmdef
        have hgpInv := GInv_gwne hg hg.minv hg.msides e
        have hflip : EmInv g m mp := flipCycle_EmInv hn hg.minv
        have hsflip := msides_of_EmInv hg hflip
        have hgmInv := GInv_gwe hg (flipCycle_MInv hn hg.minv) hsflip e
        have hL1 := ih gp m (create_directed_matching_graph gp m) hgpInv (fun a ha => ha)
        have hL2 := ih gm mp (create_directed_matching_graph gm mp) hgmInv (fun a ha => ha)
        have hL1E := maxIter_EmInv fuel T B gp m _ hgpInv (fun a ha => ha)
        have hL2E := maxIter_EmInv fuel T B gm mp _ hgmInv (fun a ha => ha)
        have hem : e ∈ m := normCycle_e_mem hn
        have hemp : e ∉ mp := flipCycle_e_not_mem hn hg.minv
        have hL1e : ∀ N ∈ enumMaxIter fuel gp m (create_directed_matching_graph gp m),
            e ∈ N := by
          intro N hN
          exact EmInv_stale_mem hg.minv.1 (hL1E N hN) (gwne_e1_not_top g e) hem
        have hL2e : ∀ N ∈ enumMaxIter fuel gm mp (create_directed_matching_graph gm mp),
            e ∉ N := by
          intro N hN
          exact EmInv_avoid_mem (hL2E N hN) hemp (gwe_e_not_mem g e)
        constructor
        · rw [List.pairwise_cons]
          constructor
          · intro N hN
            rcases List.mem_append.mp hN with h | h
            · exact (ne_toFinset_of_mem (hL1e N h) hemp).symm
            · exact ((hL2.2) N h).symm
          · rw [List.pairwise_append]
            refine ⟨hL1.1, hL2.1, ?_⟩
            intro a ha b hb
            exact ne_toFinset_of_mem (hL1e a ha) (hL2e b hb)
        · intro N hN
          rcases List.mem_cons.mp hN with rfl | hN2
          · exact flipCycle_ne_finset hn hg.minv
          · rcases List.mem_append.mp hN2 with h | h
            · exact (hL1.2) N h
            · exact ne_toFinset_of_mem hem (hL2e N h) |>.symm
      | none =>
        cases hpa : _find_feaseable_two_edge_path g m with
        | none =>
          rw [enumMaxIter_done hcy hpa]
          exact ⟨List.Pairwise.nil, fun N hN => absurd hN (List.not_mem_nil N)⟩
        | some path =>
          rw [enumMaxIter_path hne hcy hpa rfl rfl rfl rfl]
          obtain ⟨hedge, ht1, ht2, hlk1, hlk2⟩ := rewire_facts hg hpa
          set t1 := path.getD 0 0 with ht1def
          set b := path.getD 1 0 with hbdef
          set t2 := path.getD 2 0 with ht2def
          set mp := mset (mdel m t1) t2 b with hmpdef
          set e : V × V := (t2, b) with hedef
          set gp := graph_without_nodes_of_edge g e with hgpdef
          set gm := graph_without_edge g e with hgmdef
          have hrew : EmInv g m mp := rewire_EmInv hg hpa
          have hsrew := msides_of_EmInv hg hrew
          have hgpInv := GInv_gwne hg hrew.1 hsrew e
          have hgmInv := GInv_gwe hg hg.minv hg.msides e
          have hL1 := ih gp mp (create_directed_matching_graph gp mp) hgpInv (fun a ha => ha)
          have hL2 := ih gm m (create_directed_matching_graph gm m) hgmInv (fun a ha => ha)
          have hL1E := maxIter_EmInv fuel T B gp mp _ hgpInv (fun a ha => ha)
          have hL2E := maxIter_EmInv fuel T B gm m _ hgmInv (fun a ha => ha)
          have hne12 : t1 ≠ t2 := by
            intro he
            rw [he, hlk2] at hlk1
            exact Option.noConfusion hlk1
          have hem : e ∈ mp := rewire_e_mem t1 b t2
          have henm : e ∉ m := pair_not_mem_of_key ((mlookup_eq_none_iff m t2).mp hlk2)
          have hpm : (t1, b) ∈ m := mem_of_mlookup hlk1
          have hpnm : (t1, b) ∉ mp := rewire_ep_not_mem hne12 b b
          have hL1e : ∀ N ∈ enumMaxIter fuel gp mp (create_directed_matching_graph gp mp),
              e ∈ N := by
            intro N hN
            exact EmInv_stale_mem hrew.1.1 (hL1E N hN) (gwne_e1_not_top g e) hem
          have hL2e : ∀ N ∈ enumMaxIter fuel gm m (create_directed_matching_graph gm m),
              e ∉ N := by
            intro N hN
            exact EmInv_avoid_mem (hL2E N hN) henm (gwe_e_not_mem g e)
          constructor
          · rw [List.pairwise_cons]
            constructor
            · intro N hN
              rcases List.mem_append.mp hN with h | h
              · exact ((hL1.2) N h).symm
              · exact ne_toFinset_of_mem hem (hL2e N h)
            · rw [List.pairwise_append]
              refine ⟨hL1.1, hL2.1, ?_⟩
              intro x hx y hy
              exact ne_toFinset_of_mem (hL1e x hx) (hL2e y hy)
          · intro N hN
            rcases List.mem_cons.mp hN with rfl | hN2
            · exact ne_toFinset_of_mem hem henm
            · rcases List.mem_append.mp hN2 with h | h
              · exact ne_toFinset_of_mem (hL1e N h) henm
              · exact (hL2.2) N h

theorem perfectIter_nodup (fuel : Nat) (T B : List V) :
    ∀ (g : BGraph) (m : Pairs), GInv T B g m →
      (enumPerfectIter fuel g m).Pairwise (fun a b => a.toFinset ≠ b.toFinset) ∧
        ∀ N ∈ enumPerfectIter fuel g m, N.toFinset ≠ m.toFinset := by
  induction fuel with
  | zero =>
    intro g m _
    exact ⟨List.Pairwise.nil, fun N hN => absurd hN (List.not_mem_nil N)⟩
  | succ fuel ih =>
    intro g m hg
    by_cases hE : g.edges.isEmpty = true
    · rw [enumPerfectIter, if_pos hE]
      exact ⟨List.Pairwise.nil, fun N hN => absurd hN (List.not_mem_nil N)⟩
    · have hne : g.edges.isEmpty = false := Bool.eq_false_iff.mpr hE
      cases hcy : find_cycle_with_edge_of_matching (create_directed_matching_graph g m) m with
      | none =>
        rw [enumPerfectIter_nocycle hcy]
        exact ⟨List.Pairwise.nil, fun N hN => absurd hN (List.not_mem_nil N)⟩
      | some raw =>
        rw [enumPerfectIter_cycle hne hcy rfl rfl rfl rfl rfl]
        have hn : NormCycle g m (start_cycle_with_left g raw) :=
          normCycle_of_found hg.wfg (fun a ha => ha) (findCycle_sound hcy)
        set c := start_cycle_with_left g raw with hcdef
        set e : V × V := (c.getD 0 0, c.getD 1 0) with hedef
        set mp := flipCycle m c with hmpdef
        set gpt := to_undirected (strongly_connected_components_decomposition
          (create_directed_matching_graph (graph_without_nodes_of_edge g e) m)) with hgptdef
        set gmt := to_undirected (strongly_connected_components_decomposition
          (create_directed_matching_graph (graph_without_edge g e) mp)) with hgmtdef
        have hflip : EmInv g m mp := flipCycle_EmInv hn hg.minv
        have hsflip := msides_of_EmInv hg hflip
        have hgpInv : GInv T B gpt m :=
          GInv_trimmed m (GInv_gwne hg hg.minv hg.msides e) hg.minv hg.msides
        have hgmInv : GInv T B gmt mp :=
          GInv_trimmed mp (GInv_gwe hg (flipCycle_MInv hn hg.minv) hsflip e)
            (flipCycle_MInv hn hg.minv) hsflip
        have hL1 := ih gpt m hgpInv
        have hL2 := ih gmt mp hgmInv
        have hL1E := perfectIter_EmInv fuel T B gpt m hgpInv
        have hL2E := perfectIter_EmInv fuel T B gmt mp hgmInv
        have hem : e ∈ m := normCycle_e_mem hn
        have hemp : e ∉ mp := flipCycle_e_not_mem hn hg.minv
        have hstale : e.1 ∉ gpt.tops := gwne_e1_not_top g e
        have hL1e : ∀ N ∈ enumPerfectIter fuel gpt m, e ∈ N := by
          intro N hN
          exact EmInv_stale_mem hg.minv.1 (hL1E N hN) hstale hem
        have hL2e : ∀ N ∈ enumPerfectIter fuel gmt mp, e ∉ N := by
          intro N hN
          apply EmInv_avoid_mem (hL2E N hN) hemp
          intro hc
          exact gwe_e_not_mem g e (trimmed_edges_sub (WFG_gwe hg.wfg e) e hc)
        constructor
        · rw [List.pairwise_cons]
          constructor
          · intro N hN
            rcases List.mem_append.mp hN with h | h
            · exact (ne_toFinset_of_mem (hL1e N h) hemp).symm
            · exact ((hL2.2) N h).symm
          · rw [List.pairwise_append]
            refine ⟨hL1.1, hL2.1, ?_⟩
            intro a ha b hb
            exact ne_toFinset_of_mem (hL1e a ha) (hL2e b hb)
        · intro N hN
          rcases List.mem_cons.mp hN with rfl | hN2
          · exact flipCycle_ne_finset hn hg.minv
          · rcases List.mem_append.mp hN2 with h | h
            · exact (hL1.2) N h
            · exact (ne_toFinset_of_mem hem (hL2e N h)).symm

/-! ## Seed matcher lemmas -/

theorem isMatchingB_iff (l : Pairs) : isMatchingB l = true ↔ keysNodup l ∧ valsNodup l := by
  unfold isMatchingB keysNodup valsNodup mkeys mvals
  simp

theorem foldl_pick_mem (l : List Pairs) : ∀ acc : Pairs,
    l.foldl (fun a x => if a.length < x.length then x else a) acc = acc ∨
      l.foldl (fun a x => if a.length < x.length then x else a) acc ∈ l := by
  induction l with
  | nil =>
    intro acc
    left
    rfl
  | cons x l ih =>
    intro acc
    rw [List.foldl_cons]
    by_cases h : acc.length < x.length
    · rw [if_pos h]
      rcases ih x with h1 | h1
      · right
        rw [h1]
        exact List.mem_cons_self _ _
      · right
        exact List.mem_cons_of_mem _ h1
    · rw [if_neg h]
      rcases ih acc with h1 | h1
      · left
        exact h1
      · right
        exact List.mem_cons_of_mem _ h1

theorem foldl_pick_ge (l : List Pairs) : ∀ acc : Pairs,
    acc.length ≤ (l.foldl (fun a x => if a.length < x.length then x else a) acc).length ∧
      ∀ x ∈ l, x.length ≤ (l.foldl (fun a x => if a.length < x.length then x else a) acc).length := by
  induction l with
  | nil =>
    intro acc
    exact ⟨Nat.le_refl _, fun x hx => absurd hx (List.not_mem_nil x)⟩
  | cons y l ih =>
    intro acc
    rw [List.foldl_cons]
    by_cases h : acc.length < y.length
    · rw [if_pos h]
      refine ⟨Nat.le_trans (Nat.le_of_lt h) (ih y).1, ?_⟩
      intro x hx
      rcases List.mem_cons.mp hx with rfl | hx2
      · exact (ih x).1
      · exact (ih y).2 x hx2
    · rw [if_neg h]
      refine ⟨(ih acc).1, ?_⟩
      intro x hx
      rcases List.mem_cons.mp hx with rfl | hx2
      · exact Nat.le_trans (Nat.le_of_not_lt h) (ih acc).1
      · exact (ih acc).2 x hx2

theorem nil_mem_matchingCandidates (g : BGraph) : [] ∈ matchingCandidates g := by
  unfold matchingCandidates
  apply List.mem_filter.mpr
  constructor
  · exact List.mem_sublists.mpr (List.nil_sublist _)
  · rw [isMatchingB_iff]
    constructor <;> simp [keysNodup, valsNodup, mkeys, mvals]

theorem bestMatching_mem (g : BGraph) : bestMatching g ∈ matchingCandidates g := by
  unfold bestMatching
  rcases foldl_pick_mem (matchingCandidates g) [] with h | h
  · rw [h]
    exact nil_mem_matchingCandidates g
  · exact h

theorem matchingCandidates_spec {g : BGraph} {l : Pairs} (h : l ∈ matchingCandidates g) :
    l.Sublist g.edges ∧ keysNodup l ∧ valsNodup l := by
  unfold matchingCandidates at h
  have h1 := List.mem_filter.mp h
  exact ⟨List.mem_sublists.mp h1.1, (isMatchingB_iff l).mp h1.2⟩

theorem bestMatching_spec (g : BGraph) :
    (bestMatching g).Sublist g.edges ∧ keysNodup (bestMatching g) ∧
      valsNodup (bestMatching g) :=
  matchingCandidates_spec (bestMatching_mem g)

theorem bestMatching_ge {g : BGraph} {l : Pairs} (h : l ∈ matchingCandidates g) :
    l.length ≤ (bestMatching g).length := by
  unfold bestMatching
  exact (foldl_pick_ge (matchingCandidates g) []).2 l h

theorem le_foldr_max {a : Nat} {l : List Nat} (h : a ∈ l) (b : Nat) : a ≤ l.foldr max b := by
  induction l with
  | nil => exact absurd h (List.not_mem_nil a)
  | cons x l ih =>
    rw [List.foldr_cons]
    rcases List.mem_cons.mp h with rfl | h2
    · exact Nat.le_max_left _ _
    · exact Nat.le_trans (ih h2) (Nat.le_max_right _ _)

theorem foldr_max_le {l : List Nat} {K : Nat} (h : ∀ a ∈ l, a ≤ K) : l.foldr max 0 ≤ K := by
  induction l with
  | nil => exact Nat.zero_le K
  | cons x l ih =>
    rw [List.foldr_cons]
    apply Nat.max_le.mpr
    exact ⟨h x (List.mem_cons_self _ _), ih (fun a ha => h a (List.mem_cons_of_mem _ ha))⟩

theorem nu_eq_bestMatching_length (g : BGraph) : nu g = (bestMatching g).length := by
  unfold nu
  apply Nat.le_antisymm
  · apply foldr_max_le
    intro a ha
    rcases List.mem_map.mp ha with ⟨l, hl, he⟩
    rw [← he]
    exact bestMatching_ge hl
  · exact le_foldr_max (List.mem_map_of_mem List.length (bestMatching_mem g)) 0

theorem nu_ge_abstract {g : BGraph} (hnd : g.edges.Nodup) {N : Pairs}
    (hsub : ∀ p ∈ N, p ∈ g.edges) (hk : keysNodup N) (hv : valsNodup N) :
    N.length ≤ nu g := by
  set F := g.edges.filter (fun p => decide (p ∈ N)) with hF
  have hFsub : F.Sublist g.edges := List.filter_sublist g.edges
  have hFnd : F.Nodup := hFsub.nodup hnd
  have hFmemN : ∀ p ∈ F, p ∈ N := by
    intro p hp
    have := (List.mem_filter.mp hp).2
    simpa using this
  have hFk : keysNodup F := by
    unfold keysNodup
    apply List.Nodup.map_on ?_ hFnd
    intro x hx y hy he
    exact List.inj_on_of_nodup_map hk (hFmemN x hx) (hFmemN y hy) he
  have hFv : valsNodup F := by
    unfold valsNodup
    apply List.Nodup.map_on ?_ hFnd
    intro x hx y hy he
    exact List.inj_on_of_nodup_map hv (hFmemN x hx) (hFmemN y hy) he
  have hFcand : F ∈ matchingCandidates g := by
    unfold matchingCandidates
    apply List.mem_filter.mpr
    exact ⟨List.mem_sublists.mpr hFsub, (isMatchingB_iff F).mpr ⟨hFk, hFv⟩⟩
  have hNnd : N.Nodup := List.Nodup.of_map Prod.fst hk
  have hNF : N.length ≤ F.length := by
    have h1 : N.toFinset.card = N.length := List.toFinset_card_of_nodup hNnd
    have h2 : N.toFinset ⊆ F.toFinset := by
      intro p hp
      rw [List.mem_toFinset] at hp ⊢
      apply List.mem_filter.mpr
      exact ⟨hsub p hp, by simpa using hp⟩
    have h3 : F.toFinset.card ≤ F.length := F.toFinset_card_le
    calc N.length = N.toFinset.card := h1.symm
    _ ≤ F.toFinset.card := Finset.card_le_card h2
    _ ≤ F.length := h3
  calc N.length ≤ F.length := hNF
  _ ≤ nu g := by
    unfold nu
    exact le_foldr_max (List.mem_map_of_mem List.length hFcand) 0

theorem seed_eq_bestMatching {g : BGraph} (hw : WF g) :
    (maximum_matching g).filter (fun p => decide (p.1 ∈ top_nodes g)) = bestMatching g := by
  unfold maximum_matching
  rw [List.filter_append]
  have hsub : ∀ p ∈ bestMatching g, p ∈ g.edges :=
    fun p hp => (bestMatching_spec g).1.mem hp
  have h1 : (bestMatching g).filter (fun p => decide (p.1 ∈ top_nodes g)) = bestMatching g := by
    apply List.filter_eq_self.mpr
    intro p hp
    have := hw.edgeTop p (hsub p hp)
    simpa [top_nodes] using this
  have h2 : ((bestMatching g).map (fun p => (p.2, p.1))).filter
      (fun p => decide (p.1 ∈ top_nodes g)) = [] := by
    rw [List.filter_eq_nil_iff]
    intro q hq
    rcases List.mem_map.mp hq with ⟨p, hp, he⟩
    have hbot : p.2 ∈ g.bots := hw.edgeBot p (hsub p hp)
    have : q.1 = p.2 := by rw [← he]
    simp only [top_nodes, decide_eq_true_eq, this]
    intro hc
    exact hw.disj p.2 hc hbot
  rw [h1, h2, List.append_nil]

theorem bestMatching_nonempty_of_edge {g : BGraph} {e : V × V} (he : e ∈ g.edges) :
    bestMatching g ≠ [] := by
  have hcand : [e] ∈ matchingCandidates g := by
    unfold matchingCandidates
    apply List.mem_filter.mpr
    constructor
    · exact List.mem_sublists.mpr (List.singleton_sublist.mpr he)
    · rw [isMatchingB_iff]
      constructor <;> simp [keysNodup, valsNodup, mkeys, mvals]
  have := bestMatching_ge hcand
  intro hc
  rw [hc] at this
  simp at this

theorem bestMatching_nil_of_no_edges {g : BGraph} (h : g.edges = []) : bestMatching g = [] := by
  have := (bestMatching_spec g).1
  rw [h] at this
  exact List.sublist_nil.mp this

/-! ## Top-level entry structure -/

theorem WF_of_checks {g : BGraph}
    (h1 : ∀ v ∈ g.tops, v ∉ g.bots) (h2 : ∀ p ∈ g.edges, p.1 ∈ g.tops)
    (h3 : ∀ p ∈ g.edges, p.2 ∈ g.bots) (h4 : g.tops.Nodup) (h5 : g.bots.Nodup)
    (h6 : g.edges.Nodup) : WF g := ⟨⟨h1, h2, h3⟩, h4, h5, h6⟩

theorem seed_GInv {g : BGraph} (hw : WF g) : GInv g.tops g.bots g (bestMatching g) where
  disjTB := hw.disj
  topsSub := fun _ hv => hv
  botsSub := fun _ hv => hv
  wfg := hw.toWFG
  minv := ⟨(bestMatching_spec g).2.1, (bestMatching_spec g).2.2⟩
  msides := fun p hp => ⟨hw.edgeTop p ((bestMatching_spec g).1.mem hp),
    hw.edgeBot p ((bestMatching_spec g).1.mem hp)⟩

theorem enum_max_eq {g : BGraph} (hw : WF g) (hne : bestMatching g ≠ []) :
    enum_maximum_matchings g = bestMatching g ::
      enumMaxIter (g.edges.length + 1) g (bestMatching g)
        (strongly_connected_components_decomposition
          (create_directed_matching_graph g (bestMatching g))) := by
  unfold enum_maximum_matchings
  rw [seed_eq_bestMatching hw, if_pos hne]

theorem enum_max_eq_nil {g : BGraph} (hw : WF g) (hnil : bestMatching g = []) :
    enum_maximum_matchings g = [] := by
  unfold enum_maximum_matchings
  rw [seed_eq_bestMatching hw, if_neg (by rw [hnil]; exact fun hc => hc rfl)]

theorem enum_perfect_eq_nil_of_size {g : BGraph} (h : g.tops.length ≠ g.bots.length) :
    enum_perfect_matchings g = [] := by
  unfold enum_perfect_matchings
  rw [if_pos (show (top_nodes g).length ≠ (bottom_nodes g).length from h)]

theorem enum_perfect_eq {g : BGraph} (hw : WF g) (hsz : g.tops.length = g.bots.length)
    (hne : bestMatching g ≠ []) (hfull : (bestMatching g).length = g.tops.length) :
    enum_perfect_matchings g = bestMatching g ::
      enumPerfectIter
        ((to_undirected (strongly_connected_components_decomposition
          (create_directed_matching_graph g (bestMatching g)))).edges.length + 1)
        (to_undirected (strongly_connected_components_decomposition
          (create_directed_matching_graph g (bestMatching g))))
        (bestMatching g) := by
  unfold enum_perfect_matchings
  rw [if_neg (show ¬(top_nodes g).length ≠ (bottom_nodes g).length from fun hc => hc hsz)]
  rw [seed_eq_bestMatching hw]
  rw [if_pos ⟨hne, hfull⟩]

theorem enum_perfect_eq_nil_of_guard {g : BGraph} (hw : WF g)
    (hsz : g.tops.length = g.bots.length)
    (h : ¬(bestMatching g ≠ [] ∧ (bestMatching g).length = g.tops.length)) :
    enum_perfect_matchings g = [] := by
  unfold enum_perfect_matchings
  rw [if_neg (show ¬(top_nodes g).length ≠ (bottom_nodes g).length from fun hc => hc hsz)]
  rw [seed_eq_bestMatching hw]
  exact if_neg h

/-! ## Symmetric difference of the flip -/

theorem cyc_next_prev {c : List V} (hlen : 0 < c.length) (i : Nat) :
    cyc c ((i + 1) % c.length + c.length - 1) = cyc c i := by
  apply cyc_eq_of_mod_eq
  have h1 : (i + 1) % c.length + c.length - 1 = (i + 1) % c.length + (c.length - 1) := by
    omega
  rw [h1, Nat.mod_add_mod]
  have h2 : i + 1 + (c.length - 1) = i + c.length := by omega
  rw [h2, Nat.add_mod_right]

theorem next_idx_even {len i : Nat} (hlenEven : len % 2 = 0) (hpos : 0 < len)
    (hodd : i % 2 = 1) : ((i + 1) % len) % 2 = 0 := by
  have h2 : (2 : Nat) ∣ len := Nat.dvd_of_mod_eq_zero hlenEven
  rw [Nat.mod_mod_of_dvd _ h2]
  omega

theorem flipCycle_new_mem {g : BGraph} {m : Pairs} {c : List V} (hn : NormCycle g m c)
    {i : Nat} (hi : i < c.length) (hev : i % 2 = 0) :
    (cyc c i, cyc c (i + c.length - 1)) ∈ flipCycle m c := by
  rw [flipCycle_eq_map hn]
  apply List.mem_map.mpr
  refine ⟨(cyc c i, cyc c (i + 1)), mem_of_mlookup (hn.evenMatched i hi hev), ?_⟩
  unfold updMany
  rw [show ((cyc c i, cyc c (i + 1)).1 : V) = cyc c i from rfl,
    mlookup_flipUpdates_even hn.nodup (by omega) hi hev]

theorem mem_cycleEdges_iff {c : List V} {p : V × V} :
    p ∈ cycleEdges c ↔ ∃ i, i < c.length ∧
      p = (if i % 2 = 0 then (cyc c i, cyc c (i + 1)) else (cyc c (i + 1), cyc c i)) := by
  unfold cycleEdges
  rw [List.mem_toFinset]
  constructor
  · intro h
    rcases List.mem_map.mp h with ⟨i, hi, he⟩
    exact ⟨i, List.mem_range.mp hi, he.symm⟩
  · rintro ⟨i, hi, he⟩
    exact List.mem_map.mpr ⟨i, List.mem_range.mpr hi, he.symm⟩

theorem flipCycle_matched_not_mem {g : BGraph} {m : Pairs} {c : List V} (hn : NormCycle g m c)
    (hm : MInv m) {i : Nat} (hi : i < c.length) (hev : i % 2 = 0) :
    (cyc c i, cyc c (i + 1)) ∉ flipCycle m c := by
  intro hc
  have hk : keysNodup (flipCycle m c) := flipCycle_keysNodup hn hm.1
  have hlk := mlookup_of_mem hk hc
  dsimp only at hlk
  rw [flipCycle_mlookup_even hn hi hev] at hlk
  have h4 := hn.lenGe
  have heq : cyc c (i + c.length - 1) = cyc c (i + 1) := by injection hlk
  have hred : cyc c ((i + c.length - 1) % c.length) = cyc c ((i + 1) % c.length) := by
    rw [cyc_mod, cyc_mod]
    exact heq
  have hieven : i ≤ c.length - 2 := by
    rcases Nat.lt_or_ge i (c.length - 1) with h | h
    · omega
    · have : i = c.length - 1 := by omega
      rw [this] at hev
      have := hn.lenEven
      omega
  have hlt1 : (i + c.length - 1) % c.length < c.length := Nat.mod_lt _ (by omega)
  have hlt2 : (i + 1) % c.length < c.length := Nat.mod_lt _ (by omega)
  have hidx := cyc_inj hn.nodup hlt1 hlt2 hred
  rw [prev_mod _ _ (by omega) hi, Nat.mod_eq_of_lt (by omega : i + 1 < c.length)] at hidx
  split at hidx <;> omega

theorem flipCycle_symmDiff {g : BGraph} {m : Pairs} {c : List V} (hn : NormCycle g m c)
    (hm : MInv m) :
    ((flipCycle m c).toFinset \ m.toFinset) ∪ (m.toFinset \ (flipCycle m c).toFinset)
      = cycleEdges c := by
  have h4 := hn.lenGe
  have hlen : 0 < c.length := by omega
  ext p
  rw [Finset.mem_union, Finset.mem_sdiff, Finset.mem_sdiff, List.mem_toFinset,
    List.mem_toFinset, mem_cycleEdges_iff]
  constructor
  · rintro (⟨hin, hout⟩ | ⟨hin, hout⟩)
    · rcases flipCycle_mem_cases hn hin with h | ⟨i, hi, hev, he⟩
      · exact absurd h hout
      · refine ⟨(i + c.length - 1) % c.length, Nat.mod_lt _ hlen, ?_⟩
        rw [if_neg (by rw [prev_mod_odd hn.lenEven hlen hi hev]; omega)]
        rw [he]
        have h1 : cyc c ((i + c.length - 1) % c.length + 1) = cyc c i := by
          apply cyc_eq_of_mod_eq
          rw [Nat.mod_add_mod]
          have : i + c.length - 1 + 1 = i + c.length := by omega
          rw [this, Nat.add_mod_right]
        have h2 : cyc c ((i + c.length - 1) % c.length) = cyc c (i + c.length - 1) :=
          cyc_mod c _
        rw [h1, h2]
    · by_cases hkey : ∃ i, i < c.length ∧ i % 2 = 0 ∧ p.1 = cyc c i
      · rcases hkey with ⟨i, hi, hev, hp1⟩
        have hlkm : mlookup m p.1 = some p.2 := mlookup_of_mem hm.1 hin
        rw [hp1, hn.evenMatched i hi hev] at hlkm
        have hp2 : p.2 = cyc c (i + 1) := by
          injection hlkm.symm
        refine ⟨i, hi, ?_⟩
        rw [if_pos hev]
        calc p = (p.1, p.2) := rfl
        _ = (cyc c i, cyc c (i + 1)) := by rw [hp1, hp2]
      · exfalso
        apply hout
        have hother : ∀ i, i < c.length → i % 2 = 0 → p.1 ≠ cyc c i := by
          intro i hi hev he
          exact hkey ⟨i, hi, hev, he⟩
        have := flipCycle_mlookup_other hn hother
        rw [mlookup_of_mem hm.1 hin] at this
        exact mem_of_mlookup this
  · rintro ⟨i, hi, he⟩
    by_cases hev : i % 2 = 0
    · rw [if_pos hev] at he
      right
      rw [he]
      exact ⟨mem_of_mlookup (hn.evenMatched i hi hev),
        flipCycle_matched_not_mem hn hm hi hev⟩
    · rw [if_neg hev] at he
      left
      have hodd : i % 2 = 1 := by omega
      have hie : ((i + 1) % c.length) % 2 = 0 := next_idx_even hn.lenEven hlen hodd
      have hilt : (i + 1) % c.length < c.length := Nat.mod_lt _ hlen
      have hmem := flipCycle_new_mem hn hilt hie
      have hfst : cyc c ((i + 1) % c.length) = cyc c (i + 1) := cyc_mod c _
      have hsnd : cyc c ((i + 1) % c.length + c.length - 1) = cyc c i := cyc_next_prev hlen i
      rw [hfst, hsnd] at hmem
      constructor
      · rw [he]
        exact hmem
      · rw [he]
        intro hc
        have hlkm := mlookup_of_mem hm.1 hc
        dsimp only at hlkm
        exact hn.oddUnmatched i hi hodd hlkm

/-! ## Claim theorems -/

/-- C2: every matching emitted by `enum_maximum_matchings g` has cardinality equal to
the maximum matching number `nu g`, and every matching emitted by
`enum_perfect_matchings g` has cardinality `|T|`, with `|T| = |B|`. -/
theorem claim_C2 (g : BGraph) (hw : WF g) :
    (∀ N ∈ enum_maximum_matchings g, N.length = nu g) ∧
      (∀ N ∈ enum_perfect_matchings g, N.length = g.tops.length ∧
        g.tops.length = g.bots.length) := by
  constructor
  · intro N hN
    by_cases hnil : bestMatching g = []
    · rw [enum_max_eq_nil hw hnil] at hN
      exact absurd hN (List.not_mem_nil N)
    · rw [enum_max_eq hw hnil] at hN
      rcases List.mem_cons.mp hN with rfl | hN2
      · exact (nu_eq_bestMatching_length g).symm
      · have := maxIter_EmInv (g.edges.length + 1) g.tops g.bots g (bestMatching g) _
          (seed_GInv hw) (fun a ha => scc_arcs_sub _ a ha) N hN2
        rw [this.2.1, nu_eq_bestMatching_length g]
  · intro N hN
    by_cases hsz : g.tops.length = g.bots.length
    · by_cases hg2 : bestMatching g ≠ [] ∧ (bestMatching g).length = g.tops.length
      · rw [enum_perfect_eq hw hsz hg2.1 hg2.2] at hN
        rcases List.mem_cons.mp hN with rfl | hN2
        · exact ⟨hg2.2, hsz⟩
        · have hgi := GInv_trimmed (bestMatching g) (seed_GInv hw)
            (seed_GInv hw).minv (seed_GInv hw).msides
          have := perfectIter_EmInv _ g.tops g.bots _ (bestMatching g) hgi N hN2
          exact ⟨by rw [this.2.1, hg2.2], hsz⟩
      · rw [enum_perfect_eq_nil_of_guard hw hsz hg2] at hN
        exact absurd hN (List.not_mem_nil N)
    · rw [enum_perfect_eq_nil_of_size hsz] at hN
      exact absurd hN (List.not_mem_nil N)

/-- C2 witness at the concrete graph `K_{2,2}`. -/
theorem claim_C2_witness :
    WF exK22 ∧ ((∀ N ∈ enum_maximum_matchings exK22, N.length = nu exK22) ∧
      (∀ N ∈ enum_perfect_matchings exK22, N.length = exK22.tops.length ∧
        exK22.tops.length = exK22.bots.length)) :=
  ⟨WF_of_checks (by decide) (by decide) (by decide) (by decide) (by decide) (by decide),
    claim_C2 exK22
      (WF_of_checks (by decide) (by decide) (by decide) (by decide) (by decide) (by decide))⟩

/-- C3: every pair of every emitted matching is an edge of the input graph, and every
emitted matching is injective on both sides (no top in two pairs, no bottom in two
pairs). -/
theorem claim_C3 (g : BGraph) (hw : WF g) :
    (∀ N ∈ enum_perfect_matchings g,
      (∀ p ∈ N, p ∈ g.edges) ∧ keysNodup N ∧ valsNodup N) ∧
      (∀ N ∈ enum_maximum_matchings g,
        (∀ p ∈ N, p ∈ g.edges) ∧ keysNodup N ∧ valsNodup N) := by
  have hseedSub : ∀ p ∈ bestMatching g, p ∈ g.edges :=
    fun p hp => (bestMatching_spec g).1.mem hp
  have hseedM : MInv (bestMatching g) := (seed_GInv hw).minv
  constructor
  · intro N hN
    by_cases hsz : g.tops.length = g.bots.length
    · by_cases hg2 : bestMatching g ≠ [] ∧ (bestMatching g).length = g.tops.length
      · rw [enum_perfect_eq hw hsz hg2.1 hg2.2] at hN
        rcases List.mem_cons.mp hN with rfl | hN2
        · exact ⟨hseedSub, hseedM⟩
        · have hgi := GInv_trimmed (bestMatching g) (seed_GInv hw)
            (seed_GInv hw).minv (seed_GInv hw).msides
          have hE := perfectIter_EmInv _ g.tops g.bots _ (bestMatching g) hgi N hN2
          refine ⟨?_, hE.1⟩
          intro p hp
          rcases hE.2.2.1 p hp with h | h
          · exact hseedSub p h
          · exact trimmed_edges_sub hw.toWFG p h
      · rw [enum_perfect_eq_nil_of_guard hw hsz hg2] at hN
        exact absurd hN (List.not_mem_nil N)
    · rw [enum_perfect_eq_nil_of_size hsz] at hN
      exact absurd hN (List.not_mem_nil N)
  · intro N hN
    by_cases hnil : bestMatching g = []
    · rw [enum_max_eq_nil hw hnil] at hN
      exact absurd hN (List.not_mem_nil N)
    · rw [enum_max_eq hw hnil] at hN
      rcases List.mem_cons.mp hN with rfl | hN2
      · exact ⟨hseedSub, hseedM⟩
      · have hE := maxIter_EmInv (g.edges.length + 1) g.tops g.bots g (bestMatching g) _
          (seed_GInv hw) (fun a ha => scc_arcs_sub _ a ha) N hN2
        refine ⟨?_, hE.1⟩
        intro p hp
        rcases hE.2.2.1 p hp with h | h
        · exact hseedSub p h
        · exact h

/-- C3 witness at the concrete graph `K_{2,2}`. -/
theorem claim_C3_witness :
    WF exK22 ∧ ((∀ N ∈ enum_perfect_matchings exK22,
      (∀ p ∈ N, p ∈ exK22.edges) ∧ keysNodup N ∧ valsNodup N) ∧
      (∀ N ∈ enum_maximum_matchings exK22,
        (∀ p ∈ N, p ∈ exK22.edges) ∧ keysNodup N ∧ valsNodup N)) :=
  ⟨WF_of_checks (by decide) (by decide) (by decide) (by decide) (by decide) (by decide),
    claim_C3 exK22
      (WF_of_checks (by decide) (by decide) (by decide) (by decide) (by decide) (by decide))⟩

/-- C4: within one run of either enumerator, no matching (as a set of pairs) is
emitted twice. -/
theorem claim_C4 (g : BGraph) (hw : WF g) :
    (enum_perfect_matchings g).Pairwise (fun a b => a.toFinset ≠ b.toFinset) ∧
      (enum_maximum_matchings g).Pairwise (fun a b => a.toFinset ≠ b.toFinset) := by
  constructor
  · by_cases hsz : g.tops.length = g.bots.length
    · by_cases hg2 : bestMatching g ≠ [] ∧ (bestMatching g).length = g.tops.length
      · rw [enum_perfect_eq hw hsz hg2.1 hg2.2]
        have hgi := GInv_trimmed (bestMatching g) (seed_GInv hw)
          (seed_GInv hw).minv (seed_GInv hw).msides
        have hnd := perfectIter_nodup
          ((to_undirected (strongly_connected_components_decomposition
            (create_directed_matching_graph g (bestMatching g)))).edges.length + 1)
          g.tops g.bots _ (bestMatching g) hgi
        rw [List.pairwise_cons]
        exact ⟨fun N hN => ((hnd.2) N hN).symm, hnd.1⟩
      · rw [enum_perfect_eq_nil_of_guard hw hsz hg2]
        exact List.Pairwise.nil
    · rw [enum_perfect_eq_nil_of_size hsz]
      exact List.Pairwise.nil
  · by_cases hnil : bestMatching g = []
    · rw [enum_max_eq_nil hw hnil]
      exact List.Pairwise.nil
    · rw [enum_max_eq hw hnil]
      have hnd := maxIter_nodup (g.edges.length + 1) g.tops g.bots g (bestMatching g) _
        (seed_GInv hw) (fun a ha => scc_arcs_sub _ a ha)
      rw [List.pairwise_cons]
      exact ⟨fun N hN => ((hnd.2) N hN).symm, hnd.1⟩

/-- C4 witness at the concrete graph `K_{2,2}`. -/
theorem claim_C4_witness :
    WF exK22 ∧
      ((enum_perfect_matchings exK22).Pairwise (fun a b => a.toFinset ≠ b.toFinset) ∧
        (enum_maximum_matchings exK22).Pairwise (fun a b => a.toFinset ≠ b.toFinset)) :=
  ⟨WF_of_checks (by decide) (by decide) (by decide) (by decide) (by decide) (by decide),
    claim_C4 exK22
      (WF_of_checks (by decide) (by decide) (by decide) (by decide) (by decide) (by decide))⟩

/-- C6: for a matching `M` and a normalized alternating cycle `C` of `D(G, M)`
(starting at a TOP node, with the matched/unmatched arc pattern the directed
matching graph induces), the flipped matching `M'` is a matching of the same
cardinality, differs from `M`, and satisfies `M' ⊕ M = E(C)`. -/
theorem claim_C6 (g : BGraph) (m : Pairs) (raw : List V) (hw : WFG g) (hm : MInv m)
    (hcy : isMatchedCycle (create_directed_matching_graph g m) m raw = true) :
    MInv (flipCycle m (start_cycle_with_left g raw)) ∧
      (flipCycle m (start_cycle_with_left g raw)).length = m.length ∧
      (flipCycle m (start_cycle_with_left g raw)).toFinset ≠ m.toFinset ∧
      ((flipCycle m (start_cycle_with_left g raw)).toFinset \ m.toFinset) ∪
          (m.toFinset \ (flipCycle m (start_cycle_with_left g raw)).toFinset) =
        cycleEdges (start_cycle_with_left g raw) := by
  have hn := normCycle_of_found hw (fun a ha => ha) hcy
  exact ⟨flipCycle_MInv hn hm, flipCycle_length hn, flipCycle_ne_finset hn hm,
    flipCycle_symmDiff hn hm⟩

/-- C6 witness: the four-cycle of `K_{2,2}` flipped against the matching
`{0 ↦ 10, 1 ↦ 11}`. -/
theorem claim_C6_witness :
    (WFG exK22 ∧ MInv [(0, 10), (1, 11)] ∧
      isMatchedCycle (create_directed_matching_graph exK22 [(0, 10), (1, 11)])
        [(0, 10), (1, 11)] [0, 10, 1, 11] = true) ∧
      (MInv (flipCycle [(0, 10), (1, 11)] (start_cycle_with_left exK22 [0, 10, 1, 11])) ∧
        (flipCycle [(0, 10), (1, 11)] (start_cycle_with_left exK22 [0, 10, 1, 11])).length =
          ([(0, 10), (1, 11)] : Pairs).length ∧
        (flipCycle [(0, 10), (1, 11)]
            (start_cycle_with_left exK22 [0, 10, 1, 11])).toFinset ≠
          ([(0, 10), (1, 11)] : Pairs).toFinset ∧
        ((flipCycle [(0, 10), (1, 11)]
              (start_cycle_with_left exK22 [0, 10, 1, 11])).toFinset \
            ([(0, 10), (1, 11)] : Pairs).toFinset) ∪
          (([(0, 10), (1, 11)] : Pairs).toFinset \
            (flipCycle [(0, 10), (1, 11)]
              (start_cycle_with_left exK22 [0, 10, 1, 11])).toFinset) =
          cycleEdges (start_cycle_with_left exK22 [0, 10, 1, 11])) :=
  ⟨⟨⟨by decide, by decide, by decide⟩,
      ⟨show ([0, 1] : List V).Nodup by decide, show ([10, 11] : List V).Nodup by decide⟩,
      by decide⟩,
    claim_C6 exK22 [(0, 10), (1, 11)] [0, 10, 1, 11]
      ⟨by decide, by decide, by decide⟩
      ⟨show ([0, 1] : List V).Nodup by decide, show ([10, 11] : List V).Nodup by decide⟩
      (by decide)⟩

/-- C7: the maximum enumerator emits nothing exactly when the graph has no edges,
and otherwise its first emission is the seed maximum matching restricted to top
keys. -/
theorem claim_C7 (g : BGraph) (hw : WF g) :
    (enum_maximum_matchings g = [] ↔ g.edges = []) ∧
      (g.edges ≠ [] →
        (enum_maximum_matchings g).head? =
          some ((maximum_matching g).filter (fun p => decide (p.1 ∈ top_nodes g)))) := by
  have hiff : bestMatching g = [] ↔ g.edges = [] := by
    constructor
    · intro h
      cases he : g.edges with
      | nil => rfl
      | cons e es =>
        exact absurd h (bestMatching_nonempty_of_edge (he ▸ List.mem_cons_self e es))
    · exact bestMatching_nil_of_no_edges
  constructor
  · constructor
    · intro h
      by_cases hnil : bestMatching g = []
      · exact hiff.mp hnil
      · rw [enum_max_eq hw hnil] at h
        exact List.noConfusion h
    · intro h
      exact enum_max_eq_nil hw (hiff.mpr h)
  · intro h
    have hnil : bestMatching g ≠ [] := fun hc => h (hiff.mp hc)
    rw [enum_max_eq hw hnil, seed_eq_bestMatching hw]
    rfl

/-- C7 witness at the one-edge graph S1. -/
theorem claim_C7_witness :
    WF exS1 ∧ exS1.edges ≠ [] ∧
      (enum_maximum_matchings exS1 = [] ↔ exS1.edges = []) ∧
      (enum_maximum_matchings exS1).head? =
        some ((maximum_matching exS1).filter (fun p => decide (p.1 ∈ top_nodes exS1))) :=
  ⟨WF_of_checks (by decide) (by decide) (by decide) (by decide) (by decide) (by decide),
    by decide,
    (claim_C7 exS1
      (WF_of_checks (by decide) (by decide) (by decide) (by decide) (by decide)
        (by decide))).1,
    (claim_C7 exS1
      (WF_of_checks (by decide) (by decide) (by decide) (by decide) (by decide)
        (by decide))).2 (by decide)⟩

/-- C8 as stated fails on the graph with no vertices: both sides have size zero, the
seed matching restricted to top keys has full cardinality |M| = |T| = 0, yet the
enumerator emits nothing, so no first matching exists. -/
theorem claim_C8_counterexample :
    exEmpty.tops.length = exEmpty.bots.length ∧
      ((maximum_matching exEmpty).filter
        (fun p => decide (p.1 ∈ top_nodes exEmpty))).length = exEmpty.tops.length ∧
      enum_perfect_matchings exEmpty = [] := by
  decide

/-- C8 amended: if the sides differ in size the perfect enumerator emits nothing; if
the restricted seed matching is smaller than |T| it emits nothing; and if the seed
has full size |T| with |T| positive, the first emission is the restricted seed. -/
theorem claim_C8 (g : BGraph) (hw : WF g) :
    (g.tops.length ≠ g.bots.length → enum_perfect_matchings g = []) ∧
      (g.tops.length = g.bots.length →
        ((maximum_matching g).filter (fun p => decide (p.1 ∈ top_nodes g))).length <
            g.tops.length →
          enum_perfect_matchings g = []) ∧
      (g.tops.length = g.bots.length →
        ((maximum_matching g).filter (fun p => decide (p.1 ∈ top_nodes g))).length =
            g.tops.length →
          0 < g.tops.length →
          (enum_perfect_matchings g).head? =
            some ((maximum_matching g).filter (fun p => decide (p.1 ∈ top_nodes g)))) := by
  refine ⟨enum_perfect_eq_nil_of_size, ?_, ?_⟩
  · intro hsz hlt
    rw [seed_eq_bestMatching hw] at hlt
    apply enum_perfect_eq_nil_of_guard hw hsz
    intro hc
    exact absurd hc.2 (Nat.ne_of_lt hlt)
  · intro hsz heq hpos
    rw [seed_eq_bestMatching hw] at heq
    have hne : bestMatching g ≠ [] := by
      intro hc
      rw [hc] at heq
      simp only [List.length_nil] at heq
      omega
    rw [enum_perfect_eq hw hsz hne heq, seed_eq_bestMatching hw]
    rfl

/-- C8 witness at the one-edge graph S1 (all three hypotheses concrete). -/
theorem claim_C8_witness :
    WF exS1 ∧ exS1.tops.length = exS1.bots.length ∧
      ((maximum_matching exS1).filter
        (fun p => decide (p.1 ∈ top_nodes exS1))).length = exS1.tops.length ∧
      0 < exS1.tops.length ∧
      (enum_perfect_matchings exS1).head? =
        some ((maximum_matching exS1).filter (fun p => decide (p.1 ∈ top_nodes exS1))) :=
  ⟨WF_of_checks (by decide) (by decide) (by decide) (by decide) (by decide) (by decide),
    by decide, by decide, by decide,
    (claim_C8 exS1
      (WF_of_checks (by decide) (by decide) (by decide) (by decide) (by decide)
        (by decide))).2.2 (by decide) (by decide) (by decide)⟩

/-- C9: every emitted matching maps top nodes to bottom nodes, and this sidedness is
preserved by the cycle flip and by the length-2 path rewiring. -/
theorem claim_C9 (g : BGraph) (hw : WF g) :
    (∀ N ∈ enum_perfect_matchings g, ∀ p ∈ N, p.1 ∈ g.tops ∧ p.2 ∈ g.bots) ∧
      (∀ N ∈ enum_maximum_matchings g, ∀ p ∈ N, p.1 ∈ g.tops ∧ p.2 ∈ g.bots) ∧
      (∀ (m : Pairs) (c : List V), NormCycle g m c →
        (∀ p ∈ m, p.1 ∈ g.tops ∧ p.2 ∈ g.bots) →
        ∀ p ∈ flipCycle m c, p.1 ∈ g.tops ∧ p.2 ∈ g.bots) ∧
      (∀ (m : Pairs) (path : List V), GInv g.tops g.bots g m →
        _find_feaseable_two_edge_path g m = some path →
        ∀ p ∈ mset (mdel m (path.getD 0 0)) (path.getD 2 0) (path.getD 1 0),
          p.1 ∈ g.tops ∧ p.2 ∈ g.bots) := by
  have hseedSub : ∀ p ∈ bestMatching g, p ∈ g.edges :=
    fun p hp => (bestMatching_spec g).1.mem hp
  have hside : ∀ p ∈ g.edges, p.1 ∈ g.tops ∧ p.2 ∈ g.bots :=
    fun p hp => ⟨hw.edgeTop p hp, hw.edgeBot p hp⟩
  refine ⟨?_, ?_, ?_, ?_⟩
  · intro N hN
    by_cases hsz : g.tops.length = g.bots.length
    · by_cases hg2 : bestMatching g ≠ [] ∧ (bestMatching g).length = g.tops.length
      · rw [enum_perfect_eq hw hsz hg2.1 hg2.2] at hN
        rcases List.mem_cons.mp hN with rfl | hN2
        · exact fun p hp => hside p (hseedSub p hp)
        · have hgi := GInv_trimmed (bestMatching g) (seed_GInv hw)
            (seed_GInv hw).minv (seed_GInv hw).msides
          have hE := perfectIter_EmInv _ g.tops g.bots _ (bestMatching g) hgi N hN2
          intro p hp
          rcases hE.2.2.1 p hp with h | h
          · exact hside p (hseedSub p h)
          · exact hside p (trimmed_edges_sub hw.toWFG p h)
      · rw [enum_perfect_eq_nil_of_guard hw hsz hg2] at hN
        exact absurd hN (List.not_mem_nil N)
    · rw [enum_perfect_eq_nil_of_size hsz] at hN
      exact absurd hN (List.not_mem_nil N)
  · intro N hN
    by_cases hnil : bestMatching g = []
    · rw [enum_max_eq_nil hw hnil] at hN
      exact absurd hN (List.not_mem_nil N)
    · rw [enum_max_eq hw hnil] at hN
      rcases List.mem_cons.mp hN with rfl | hN2
      · exact fun p hp => hside p (hseedSub p hp)
      · have hE := maxIter_EmInv (g.edges.length + 1) g.tops g.bots g (bestMatching g) _
          (seed_GInv hw) (fun a ha => scc_arcs_sub _ a ha) N hN2
        intro p hp
        rcases hE.2.2.1 p hp with h | h
        · exact hside p (hseedSub p h)
        · exact hside p h
  · intro m c hn hm p hp
    rcases flipCycle_pairs_sub hn p hp with h | h
    · exact hm p h
    · exact hside p h
  · intro m path hg hpa p hp
    have hE := rewire_EmInv hg hpa
    rcases hE.2.2.1 p hp with h | h
    · exact hg.msides p h
    · exact hside p h

/-- C9 witness at the concrete graph `K_{2,2}`. -/
theorem claim_C9_witness :
    WF exK22 ∧
      ((∀ N ∈ enum_perfect_matchings exK22, ∀ p ∈ N,
          p.1 ∈ exK22.tops ∧ p.2 ∈ exK22.bots) ∧
        (∀ N ∈ enum_maximum_matchings exK22, ∀ p ∈ N,
          p.1 ∈ exK22.tops ∧ p.2 ∈ exK22.bots) ∧
        (∀ (m : Pairs) (c : List V), NormCycle exK22 m c →
          (∀ p ∈ m, p.1 ∈ exK22.tops ∧ p.2 ∈ exK22.bots) →
          ∀ p ∈ flipCycle m c, p.1 ∈ exK22.tops ∧ p.2 ∈ exK22.bots) ∧
        (∀ (m : Pairs) (path : List V), GInv exK22.tops exK22.bots exK22 m →
          _find_feaseable_two_edge_path exK22 m = some path →
          ∀ p ∈ mset (mdel m (path.getD 0 0)) (path.getD 2 0) (path.getD 1 0),
            p.1 ∈ exK22.tops ∧ p.2 ∈ exK22.bots)) :=
  ⟨WF_of_checks (by decide) (by decide) (by decide) (by decide) (by decide) (by decide),
    claim_C9 exK22
      (WF_of_checks (by decide) (by decide) (by decide) (by decide) (by decide)
        (by decide))⟩

/-- C10: on the graph with no vertices the perfect enumerator emits nothing, the
restricted seed matching being empty, even though the side counts agree. -/
theorem claim_C10 :
    enum_perfect_matchings exEmpty = [] ∧
      (maximum_matching exEmpty).filter (fun p => decide (p.1 ∈ top_nodes exEmpty)) = [] ∧
      exEmpty.tops.length = exEmpty.bots.length := by
  decide

/-- C5 counterexample: on `K_{3,2}` the source enumerator and the spec-literal
variant of the cycle branch (build `D⁺` from `M` with the pair for `C[0]` removed
and recurse with that reduced matching) emit different matching lists — the
variant even emits a matching of smaller cardinality. -/
theorem claim_C5_counterexample :
    enum_maximum_matchings exK32 ≠ enum_maximum_matchings_specC5 exK32 := by
  decide

/-- C5 amended: in the cycle branch the `G⁺` recursion of the maximum enumerator
receives the full parent matching `M` (as does the perfect variant), and the
directed graph built from `G⁺` and `M` coincides with the one built from `G⁺` and
`M` with the pair for `C[0]` removed, because both endpoints of the flipped edge
are deleted from `G⁺`. -/
theorem claim_C5_amended :
    (∀ (g : BGraph) (e : V × V) (m : Pairs),
      create_directed_matching_graph (graph_without_nodes_of_edge g e) m =
        create_directed_matching_graph (graph_without_nodes_of_edge g e) (mdel m e.1)) ∧
      (∀ (fuel : Nat) (g : BGraph) (m : Pairs) (d : DGraph) (raw : List V),
        g.edges.isEmpty = false →
        find_cycle_with_edge_of_matching d m = some raw →
        enumMaxIter (fuel + 1) g m d =
          flipCycle m (start_cycle_with_left g raw) ::
            (enumMaxIter fuel
              (graph_without_nodes_of_edge g
                ((start_cycle_with_left g raw).getD 0 0,
                  (start_cycle_with_left g raw).getD 1 0)) m
              (create_directed_matching_graph
                (graph_without_nodes_of_edge g
                  ((start_cycle_with_left g raw).getD 0 0,
                    (start_cycle_with_left g raw).getD 1 0)) m) ++
              enumMaxIter fuel
                (graph_without_edge g
                  ((start_cycle_with_left g raw).getD 0 0,
                    (start_cycle_with_left g raw).getD 1 0))
                (flipCycle m (start_cycle_with_left g raw))
                (create_directed_matching_graph
                  (graph_without_edge g
                    ((start_cycle_with_left g raw).getD 0 0,
                      (start_cycle_with_left g raw).getD 1 0))
                  (flipCycle m (start_cycle_with_left g raw))))) ∧
      (∀ (fuel : Nat) (g : BGraph) (m : Pairs) (raw : List V),
        g.edges.isEmpty = false →
        find_cycle_with_edge_of_matching (create_directed_matching_graph g m) m =
          some raw →
        enumPerfectIter (fuel + 1) g m =
          flipCycle m (start_cycle_with_left g raw) ::
            (enumPerfectIter fuel
              (to_undirected (strongly_connected_components_decomposition
                (create_directed_matching_graph
                  (graph_without_nodes_of_edge g
                    ((start_cycle_with_left g raw).getD 0 0,
                      (start_cycle_with_left g raw).getD 1 0)) m))) m ++
              enumPerfectIter fuel
                (to_undirected (strongly_connected_components_decomposition
                  (create_directed_matching_graph
                    (graph_without_edge g
                      ((start_cycle_with_left g raw).getD 0 0,
                        (start_cycle_with_left g raw).getD 1 0))
                    (flipCycle m (start_cycle_with_left g raw)))))
                (flipCycle m (start_cycle_with_left g raw)))) := by
  refine ⟨?_, ?_, ?_⟩
  · intro g e m
    unfold create_directed_matching_graph
    congr 1
    apply List.map_congr_left
    intro p hp
    have hne := (gwne_edge_avoid g e p hp).1
    rw [mlookup_mdel, if_neg hne]
  · intro fuel g m d raw hne hcy
    exact enumMaxIter_cycle hne hcy rfl rfl rfl rfl rfl
  · intro fuel g m raw hne hcy
    exact enumPerfectIter_cycle hne hcy rfl rfl rfl rfl rfl

/-- C5 amended-claim witness: concrete instance on `K_{2,2}` with the cycle found
there. -/
theorem claim_C5_amended_witness :
    exK22.edges.isEmpty = false ∧
      find_cycle_with_edge_of_matching
          (create_directed_matching_graph exK22 [(0, 10), (1, 11)]) [(0, 10), (1, 11)] =
        some [0, 10, 1, 11] ∧
      enumMaxIter (4 + 1) exK22 [(0, 10), (1, 11)]
          (create_directed_matching_graph exK22 [(0, 10), (1, 11)]) =
        flipCycle [(0, 10), (1, 11)] (start_cycle_with_left exK22 [0, 10, 1, 11]) ::
          (enumMaxIter 4
            (graph_without_nodes_of_edge exK22
              ((start_cycle_with_left exK22 [0, 10, 1, 11]).getD 0 0,
                (start_cycle_with_left exK22 [0, 10, 1, 11]).getD 1 0)) [(0, 10), (1, 11)]
            (create_directed_matching_graph
              (graph_without_nodes_of_edge exK22
                ((start_cycle_with_left exK22 [0, 10, 1, 11]).getD 0 0,
                  (start_cycle_with_left exK22 [0, 10, 1, 11]).getD 1 0)) [(0, 10), (1, 11)]) ++
            enumMaxIter 4
              (graph_without_edge exK22
                ((start_cycle_with_left exK22 [0, 10, 1, 11]).getD 0 0,
                  (start_cycle_with_left exK22 [0, 10, 1, 11]).getD 1 0))
              (flipCycle [(0, 10), (1, 11)] (start_cycle_with_left exK22 [0, 10, 1, 11]))
              (create_directed_matching_graph
                (graph_without_edge exK22
                  ((start_cycle_with_left exK22 [0, 10, 1, 11]).getD 0 0,
                    (start_cycle_with_left exK22 [0, 10, 1, 11]).getD 1 0))
                (flipCycle [(0, 10), (1, 11)]
                  (start_cycle_with_left exK22 [0, 10, 1, 11])))) :=
  ⟨by decide, by decide,
    claim_C5_amended.2.1 4 exK22 [(0, 10), (1, 11)]
      (create_directed_matching_graph exK22 [(0, 10), (1, 11)]) [0, 10, 1, 11]
      (by decide) (by decide)⟩

/-! ## Concrete completeness instances

The universal completeness count of C1 (`n!` distinct perfect matchings on
`K_{n,n}`, `n!/(n-m)!` maximum matchings on `K_{n,m}`) is not settled here;
these evaluations record the small instances that the enumerators do realize. -/

theorem perfect_count_K22 :
    ((enum_perfect_matchings exK22).map (fun m => m.toFinset)).dedup.length = 2 := by
  decide

set_option maxRecDepth 1000000 in
set_option maxHeartbeats 4000000 in
theorem perfect_count_K33 :
    ((enum_perfect_matchings exK33).map (fun m => m.toFinset)).dedup.length = 6 := by
  decide

theorem maximum_count_K32 :
    ((enum_maximum_matchings exK32).map (fun m => m.toFinset)).dedup.length = 6 := by
  decide

theorem maximum_count_K10 :
    ((enum_maximum_matchings ⟨[0], [], []⟩).map (fun m => m.toFinset)).dedup.length = 0 := by
  decide
